import Mathlib

/-!
Verification of the rustywind class-sorting engine (src/utils.rs, src/options.rs)
against its natural-language specification.

Texts, class strings and pattern strings are embedded as `List Char` (`Token`),
identifying Rust byte indices with character indices (exact for ASCII data,
which is what the catalogs and separators consist of).  Rust's `HashMap` is
embedded as an association list with insert-overwrite semantics; the regex
crate's compiled regexes are embedded as abstract match-producing functions
(`RegexM`) together with a validity predicate stating what the regex engine
guarantees about any match it reports.  Recursions whose measure is the
remaining text length are written with an explicit fuel argument (initialised
to the text length) so that every definition is structural and executable.

Items from files of the repository that are not present under src/
(src/defaults.rs and src/consts.rs: `RE`, `SORTER`, `VARIANTS`,
`VARIANT_SEARCHER`) are modelled from the spec and marked as such.
-/

namespace Rustywind

abbrev Token := List Char

/-- Rust `char::is_ascii_whitespace`: space, tab, line feed, form feed, carriage return. -/
def isAsciiWs (c : Char) : Bool :=
  c == ' ' || c == '\t' || c == '\n' || c == '\x0c' || c == '\r'

/-- Negation of `isAsciiWs`, the character class of token bytes. -/
def nws (c : Char) : Bool := !(isAsciiWs c)

/-- Fuel-driven worker for `splitWs`; the fuel dominates the text length. -/
def splitWsF : Nat → Token → List Token
  | 0, _ => []
  | _, [] => []
  | fuel + 1, c :: cs =>
    if isAsciiWs c then splitWsF fuel cs
    else (c :: cs.takeWhile nws) :: splitWsF fuel (cs.dropWhile nws)

/-- Embedding of Rust `str::split_ascii_whitespace` on the character list. -/
def splitWs (t : Token) : List Token := splitWsF t.length t

/-- Embedding of the output assembly in `sort_classes` (push each token plus a
space, then pop the trailing space): single-space join of the token list. -/
def joinSp : List Token → Token
  | [] => []
  | [t] => t
  | t :: ts => t ++ ' ' :: joinSp ts

/-- Worker for `uniqueFirst` carrying the set of already-seen tokens,
embedding `Itertools::unique` (first occurrence wins). -/
def uniqueAux (seen : List Token) : List Token → List Token
  | [] => []
  | x :: xs => if x ∈ seen then uniqueAux seen xs else x :: uniqueAux (x :: seen) xs

/-- Embedding of `Itertools::unique`: keep the first occurrence of each token. -/
def uniqueFirst (l : List Token) : List Token := uniqueAux [] l

/-- Association-list embedding of `HashMap<String, usize>` lookup (`get`). -/
def hmLookup (m : List (Token × Nat)) (k : Token) : Option Nat :=
  match m with
  | [] => none
  | kv :: rest => if kv.1 = k then some kv.2 else hmLookup rest k

/-- Association-list embedding of `HashMap<String, usize>` insert: a later
insert of an existing key overwrites the earlier binding. -/
def hmInsert (m : List (Token × Nat)) (k : Token) (v : Nat) : List (Token × Nat) :=
  match m with
  | [] => [(k, v)]
  | kv :: rest => if kv.1 = k then (k, v) :: rest else kv :: hmInsert rest k v

/-- Embedding of `Sorter` from src/options.rs. -/
inductive Sorter where
  | DefaultSorter
  | CustomSorter (m : List (Token × Nat))

/-- Stable insertion of one ranked element after all elements of rank at most
its own; used to model Rust's stable `sort_by_key`. -/
def insertR (x : Token × Nat) : List (Token × Nat) → List (Token × Nat)
  | [] => [x]
  | y :: ys => if y.2 ≤ x.2 then y :: insertR x ys else x :: y :: ys

/-- Left fold of stable insertions; the accumulator stays sorted. -/
def sortAux : List (Token × Nat) → List (Token × Nat) → List (Token × Nat)
  | acc, [] => acc
  | acc, x :: xs => sortAux (insertR x acc) xs

/-- Embedding of `sort_by_key(|&(_class, class_placement)| class_placement)`:
a stable sort of (token, rank) pairs by ascending rank. -/
def sortR (l : List (Token × Nat)) : List (Token × Nat) := sortAux [] l

/-- Sortedness by ascending rank, the invariant of `sortR`. -/
def RankSorted (l : List (Token × Nat)) : Prop :=
  List.Pairwise (fun x y => x.2 ≤ y.2) l

/-- Modelled from the spec: the variant-prefix matcher built from `VARIANTS`
and `VARIANT_SEARCHER` (src/consts.rs, absent from src/).  Given a token it
returns the first catalog entry that is a prefix of the token, resolving
overlaps by catalog order. -/
def variantPrefixOf (vs : List Token) (c : Token) : Option Token :=
  vs.find? (fun p => p.isPrefixOf c)

/-- Embedding of Rust `class.get(class_after..)`: the suffix starting at byte
`n`, or `none` when `n` exceeds the length. -/
def residualAt (n : Nat) (c : Token) : Option Token :=
  if n ≤ c.length then some (c.drop n) else none

/-- Association-list embedding of the `HashMap<&str, Vec<&str>>` of variant
groups built in `sort_classes_vec`. -/
abbrev VarMap := List (Token × List Token)

/-- Push a class at the head of the group of prefix `p` (creating the entry
when missing); the head position matches the head-first recursion of
`classify`, so each group ends up in encounter order, as `entry().push` does. -/
def vmConsHead (vm : VarMap) (p : Token) (c : Token) : VarMap :=
  match vm with
  | [] => [(p, [c])]
  | e :: rest => if e.1 = p then (e.1, c :: e.2) :: rest else e :: vmConsHead rest p c

/-- Lookup of a variant group, defaulting to the empty group; embeds
`variants.remove(key).unwrap_or_default()` reads. -/
def vmLookupD (vm : VarMap) (p : Token) : List Token :=
  match vm with
  | [] => []
  | e :: rest => if e.1 = p then e.2 else vmLookupD rest p

/-- Removal of a key, embedding `HashMap::remove`. -/
def vmRemove (vm : VarMap) (p : Token) : VarMap :=
  vm.filter (fun e => !decide (e.1 = p))

/-- The three buckets built by the classification loop of `sort_classes_vec`. -/
structure Classified where
  tailwind_classes : List (Token × Nat)
  custom_classes : List Token
  variants : VarMap

/-- Embedding of the classification loop of `sort_classes_vec` (lines 96-114
of src/utils.rs): each token goes to the canonical bucket with its rank, to
its variant-prefix group, or to the custom bucket.  The recursion processes
the head first, so every bucket is in encounter (push) order. -/
def classify (vs : List Token) (g : Token → Option Nat) : List Token → Classified
  | [] => ⟨[], [], []⟩
  | c :: cs =>
    let rest := classify vs g cs
    match g c with
    | some r => ⟨(c, r) :: rest.tailwind_classes, rest.custom_classes, rest.variants⟩
    | none =>
      match variantPrefixOf vs c with
      | some p => ⟨rest.tailwind_classes, rest.custom_classes, vmConsHead rest.variants p c⟩
      | none => ⟨rest.tailwind_classes, c :: rest.custom_classes, rest.variants⟩

/-- Embedding of the split loop of `sort_variant_classes` (lines 153-158 of
src/utils.rs): a variant token whose residual suffix is a table key is kept
with the residual's rank, otherwise it is pushed onto the custom bucket. -/
def svcSplit (g : Token → Option Nat) (class_after : Nat) : List Token → List (Token × Nat) × List Token
  | [] => ([], [])
  | c :: cs =>
    let rest := svcSplit g class_after cs
    match (residualAt class_after c).bind g with
    | some r => ((c, r) :: rest.1, rest.2)
    | none => (rest.1, c :: rest.2)

/-- Embedding of `sort_variant_classes` from src/utils.rs. -/
def sort_variant_classes (classes : List Token) (custom_classes : List Token)
    (class_after : Nat) (g : Token → Option Nat) : List Token × List Token :=
  let split := svcSplit g class_after classes
  ((sortR split.1).map Prod.fst, custom_classes ++ split.2)

/-- Embedding of the `for key in VARIANTS.iter()` loop of `sort_classes_vec`:
drain each prefix's group in catalog order, appending its sorted tokens and
threading the growing custom bucket through. -/
def variantLoop (g : Token → Option Nat) (vm : VarMap) (custom : List Token) :
    List Token → List Token × List Token
  | [] => ([], custom)
  | p :: ps =>
    let res := sort_variant_classes (vmLookupD vm p) custom (p.length + 1) g
    let rest := variantLoop g (vmRemove vm p) res.2 ps
    (res.1 ++ rest.1, rest.2)

/-- Embedding of `sort_classes_vec` from src/utils.rs; the global `VARIANTS`
catalog and the sorter map become the parameters `vs` and `g`. -/
def sort_classes_vec (vs : List Token) (g : Token → Option Nat) (classes : List Token) : List Token :=
  let cl := classify vs g classes
  let sorted_tailwind_classes := (sortR cl.tailwind_classes).map Prod.fst
  let vres := variantLoop g cl.variants cl.custom_classes vs
  sorted_tailwind_classes ++ vres.1 ++ vres.2

/-- Modelled from the spec: the ordered catalog of variant prefixes
(`VARIANTS` of src/consts.rs, absent from src/); an ordered list of
state/breakpoint modifier prefixes. -/
def VARIANTS : List Token :=
  [['s','m'], ['m','d'], ['l','g'], ['x','l'],
   ['h','o','v','e','r'], ['f','o','c','u','s'], ['a','c','t','i','v','e'],
   ['g','r','o','u','p','-','h','o','v','e','r']]

/-- Modelled from the spec: the built-in precedence table (`SORTER` of
src/defaults.rs, absent from src/); ranks strictly increase in
catalog-definition order.  The entries are the ones fixed by the spec's
worked example. -/
def SORTER : List (Token × Nat) :=
  [(['i','n','l','i','n','e','-','b','l','o','c','k'], 0),
   (['i','n','l','i','n','e'], 1),
   (['f','l','e','x'], 2),
   (['j','u','s','t','i','f','y','-','e','n','d'], 3),
   (['p','y','-','2'], 4),
   (['p','x','-','2'], 5)]

/-- Rank lookup of the active precedence table, as performed by
`sort_classes` (lines 70-73 of src/utils.rs). -/
def sorterLookup : Sorter → Token → Option Nat
  | .DefaultSorter => hmLookup SORTER
  | .CustomSorter m => hmLookup m

/-- One reported regex match: the text splits as
`pre ++ (c1pre ++ c1 ++ c1post) ++ post`, where capture group 1 is `c1`. -/
structure MatchData where
  pre : Token
  c1pre : Token
  c1 : Token
  c1post : Token
  post : Token
deriving DecidableEq

/-- The whole match span (`caps[0]`). -/
def MatchData.whole (m : MatchData) : Token := m.c1pre ++ m.c1 ++ m.c1post

/-- Abstract embedding of a compiled regex: a function producing the leftmost
match of a text, if any.  Empty matches and position-dependent anchors are
outside the model (cf. `RegexM.Valid`). -/
structure RegexM where
  find : Token → Option MatchData

/-- What the regex engine guarantees about any match it reports: the match
decomposes the text, and the whole match is nonempty. -/
def RegexM.Valid (r : RegexM) : Prop :=
  ∀ t m, r.find t = some m → t = m.pre ++ m.whole ++ m.post ∧ m.whole ≠ []

/-- Embedding of `Regex::is_match`. -/
def RegexM.is_match (r : RegexM) (t : Token) : Bool := (r.find t).isSome

/-- Embedding of `RegexPair` from src/options.rs. -/
abbrev RegexPair := RegexM × Option RegexM

/-- Embedding of `FinderRegex` from src/options.rs. -/
inductive FinderRegex where
  | DefaultRegex
  | CustomRegex (regex : RegexM)
  | CustomRegexEntries (entries : List RegexPair)

/-- Embedding of `Options` from src/options.rs, pruned to the engine-relevant
fields (the path/stdin/write-mode plumbing is out of scope per the spec). -/
structure Options where
  regex : FinderRegex
  sorter : Sorter
  allow_duplicates : Bool

/-- Embedding of `sort_classes` from src/utils.rs: split on ASCII whitespace,
optionally collapse duplicates to their first occurrence, run
`sort_classes_vec`, and join with single spaces. -/
def sort_classes (class_string : Token) (options : Options) : Token :=
  let g := sorterLookup options.sorter
  let str_vec :=
    if options.allow_duplicates then sort_classes_vec VARIANTS g (splitWs class_string)
    else sort_classes_vec VARIANTS g (uniqueFirst (splitWs class_string))
  joinSp str_vec

/-- Fuel-driven embedding of `Regex::replace_all`: repeatedly take the
leftmost match, keep the text before it, emit the replacement `f m` for the
whole match, and continue after it.  The fuel dominates the text length for
any valid regex. -/
def replaceAllFuel (r : RegexM) (f : MatchData → Token) : Nat → Token → Token
  | 0, t => t
  | fuel + 1, t =>
    match r.find t with
    | none => t
    | some m => m.pre ++ f m ++ replaceAllFuel r f fuel m.post

/-- Embedding of `Regex::replace_all` with replacement function `f`. -/
def replaceAll (r : RegexM) (f : MatchData → Token) (t : Token) : Token :=
  replaceAllFuel r f t.length t

/-- Fuel-driven worker of `strReplace` for a nonempty needle. -/
def strReplaceGo (needle repl : Token) : Nat → Token → Token
  | _, [] => []
  | 0, t => t
  | fuel + 1, c :: cs =>
    if needle.isPrefixOf (c :: cs) then
      repl ++ strReplaceGo needle repl fuel (cs.drop (needle.length - 1))
    else c :: strReplaceGo needle repl fuel cs

/-- Embedding of Rust `str::replace`: replace every non-overlapping occurrence
of `needle` in `hay` (left to right) by `repl`; an empty needle matches at
every character boundary. -/
def strReplace (hay needle repl : Token) : Token :=
  if needle.isEmpty then repl ++ (hay.map (fun c => c :: repl)).flatten
  else strReplaceGo needle repl hay.length hay

/-- The replacement used on every match in `sort_file_contents` (lines 32-37
of src/utils.rs): `caps[0].replace(classes, &sorted_classes)` with
`classes = caps[1]`. -/
def sortedReplacement (options : Options) (m : MatchData) : Token :=
  strReplace m.whole m.c1 (sort_classes m.c1 options)

/-- The replacement used for one container match in the pair-entries branch of
`sort_file_contents` (lines 44-59 of src/utils.rs). -/
def entryReplacement (options : Options) (class_regex : Option RegexM) (m : MatchData) : Token :=
  match class_regex with
  | some cr => strReplace m.whole m.c1 (replaceAll cr (sortedReplacement options) m.c1)
  | none => strReplace m.whole m.c1 (sort_classes m.c1 options)

/-- Leftmost occurrence of a literal needle: the text splits as
`before ++ needle ++ after`. -/
def firstSplit (needle : Token) : Token → Option (Token × Token)
  | [] => if needle.isEmpty then some ([], []) else none
  | c :: cs =>
    if needle.isPrefixOf (c :: cs) then some ([], (c :: cs).drop needle.length)
    else (firstSplit needle cs).map (fun ba => (c :: ba.1, ba.2))

/-- The literal `class="` that opens a default-pattern match. -/
def classLit : Token := ['c', 'l', 'a', 's', 's', '=', '"']

/-- Characters allowed inside the quoted class string. -/
def notQuote (c : Char) : Bool := !(c == '"')

/-- Modelled from the spec: the default built-in extraction pattern (`RE` of
src/defaults.rs, absent from src/).  It locates a class attribute
`class="…"` and captures the quoted class string as group 1. -/
def findDefault (t : Token) : Option MatchData :=
  match firstSplit classLit t with
  | none => none
  | some br =>
    match br.2.dropWhile notQuote with
    | [] => none
    | _ :: after => some ⟨br.1, classLit, br.2.takeWhile notQuote, ['"'], after⟩

/-- Modelled from the spec: the default compiled pattern `RE`. -/
def RE : RegexM := ⟨findDefault⟩

/-- Embedding of `has_classes` from src/utils.rs.  Note that in the
`CustomRegexEntries` case only the supplied container patterns are consulted;
`RE` is not prepended here (unlike in `sort_file_contents`). -/
def has_classes (file_contents : Token) (options : Options) : Bool :=
  match options.regex with
  | .DefaultRegex => RE.is_match file_contents
  | .CustomRegex regex => regex.is_match file_contents
  | .CustomRegexEntries entries => entries.any (fun e => e.1.is_match file_contents)

/-- Embedding of `sort_file_contents` from src/utils.rs.  In the entries case
the default pattern is prepended as the first pair and the passes run
sequentially, each on the result of the previous one. -/
def sort_file_contents (file_contents : Token) (options : Options) : Token :=
  match options.regex with
  | .DefaultRegex => replaceAll RE (sortedReplacement options) file_contents
  | .CustomRegex regex => replaceAll regex (sortedReplacement options) file_contents
  | .CustomRegexEntries pairs =>
    let all_pairs := (RE, (none : Option RegexM)) :: pairs
    all_pairs.foldl
      (fun file_result entry => replaceAll entry.1 (entryReplacement options entry.2) file_result)
      file_contents

/-- Matches reported while `replace_all` consumes the text, with fuel. -/
def allMatchesF (r : RegexM) : Nat → Token → List MatchData
  | 0, _ => []
  | fuel + 1, t =>
    match r.find t with
    | none => []
    | some m => m :: allMatchesF r fuel m.post

/-- Matches reported while `replace_all` consumes the text. -/
def allMatches (r : RegexM) (t : Token) : List MatchData := allMatchesF r t.length t

/-- The unmatched tail left after the last match, with fuel. -/
def residualTextF (r : RegexM) : Nat → Token → Token
  | 0, t => t
  | fuel + 1, t =>
    match r.find t with
    | none => t
    | some m => residualTextF r fuel m.post

/-- The unmatched tail left after the last match. -/
def residualText (r : RegexM) (t : Token) : Token := residualTextF r t.length t

/-- Reassembly of the original text from its match decomposition. -/
def rebuildO (ms : List MatchData) (tail : Token) : Token :=
  ms.foldr (fun m acc => m.pre ++ m.whole ++ acc) tail

/-- Reassembly of the rewritten text: every unmatched segment is kept
byte-identical and every whole match is replaced by `f`. -/
def rebuildR (f : MatchData → Token) (ms : List MatchData) (tail : Token) : Token :=
  ms.foldr (fun m acc => m.pre ++ f m ++ acc) tail

/-- A literal test regex: it matches the literal `p ++ c ++ q` (leftmost
occurrence, repeated non-overlappingly) and captures `c` as group 1. -/
def litRegex (p c q : Token) : RegexM :=
  ⟨fun t => (firstSplit (p ++ c ++ q) t).map (fun ba => ⟨ba.1, p, c, q, ba.2⟩)⟩

/-- Embedding of the engine-level error kinds of the spec (src/options.rs
reports them through `eyre`). -/
inductive OptionsError where
  | PatternCompileError
  | PatternShapeError
deriving DecidableEq

/-- Modelled from the spec: the result of `Regex::new` on a pattern string
(regex crate, external): the compiled matcher together with its number of
capture groups (group 0 included, as `captures_len` counts it). -/
structure CompiledRegex where
  model : RegexM
  captures_len : Nat

/-- Embedding of `CustomRegexEntryInput` from src/options.rs. -/
inductive CustomRegexEntryInput where
  | String (s : Token)
  | Pair (p : Token × Token)

/-- Embedding of `ConfigFileContents` from src/options.rs (the JSON already
parsed; file reading and JSON parsing are caller concerns per the spec). -/
structure ConfigFileContents where
  sort_order : Option (List Token)
  custom_regex : Option (List CustomRegexEntryInput)

/-- Embedding of the engine-relevant CLI inputs (`Cli`), with the config file
contents standing in for the config-file path. -/
structure Cli where
  custom_regex : Option Token
  config_file : Option ConfigFileContents
  allow_duplicates : Bool

/-- Embedding of `get_custom_regex_from_cli` from src/options.rs: a supplied
pattern must compile and expose at least 2 capture groups. -/
def get_custom_regex_from_cli (compile : Token → Option CompiledRegex) (cli : Cli) :
    Except OptionsError FinderRegex :=
  match cli.custom_regex with
  | some regex_string =>
    match compile regex_string with
    | none => .error .PatternCompileError
    | some regex =>
      if regex.captures_len < 2 then .error .PatternShapeError
      else .ok (.CustomRegex regex.model)
  | none => .ok .DefaultRegex

/-- Embedding of `parse_custom_sorter` from src/options.rs: collect the
enumerated list into a map, later positions overwriting earlier ones. -/
def parse_custom_sorter (contents : List Token) : Sorter :=
  .CustomSorter ((contents.enum.map (fun p => (p.2, p.1))).foldl
    (fun m kv => hmInsert m kv.1 kv.2) [])

/-- Embedding of `parse_custom_regex` from src/options.rs: every entry's
pattern strings are compiled with `.unwrap()`, so a compile failure panics;
the panic is modelled as `none`.  (The debug `println!` calls are I/O and
not modelled.) -/
def parse_custom_regex (compile : Token → Option CompiledRegex)
    (entries : List CustomRegexEntryInput) : Option (List RegexPair) :=
  entries.mapM (fun entry =>
    match entry with
    | .Pair p =>
      match compile p.1, compile p.2 with
      | some rc, some rk => some (rc.model, some rk.model)
      | _, _ => none
    | .String container_regex_string =>
      (compile container_regex_string).map (fun rc => (rc.model, (none : Option RegexM))))

/-- Embedding of `get_options_from_config` from src/options.rs, with the
config file contents supplied directly; `none` models the panic escaping from
`parse_custom_regex`. -/
def get_options_from_config (compile : Token → Option CompiledRegex) (cli : Cli) :
    Option (Sorter × Option (List RegexPair)) :=
  match cli.config_file with
  | some config_file =>
    let sorter := match config_file.sort_order with
      | some so => parse_custom_sorter so
      | none => .DefaultSorter
    match config_file.custom_regex with
    | some entries => (parse_custom_regex compile entries).map (fun ps => (sorter, some ps))
    | none => some (sorter, none)
  | none => some (.DefaultSorter, none)

/-- Outcome of options construction: success, a reported error value, or a
process panic (`unwrap`/`unreachable`). -/
inductive BuildResult where
  | ok (options : Options)
  | err (e : OptionsError)
  | panicked

/-- Embedding of `Options::new_from_cli` from src/options.rs, pruned to the
regex/sorter/duplicates fields: the CLI regex takes priority, otherwise
config-supplied entries, otherwise the default. -/
def Options.new_from_cli (compile : Token → Option CompiledRegex) (cli : Cli) : BuildResult :=
  match get_custom_regex_from_cli compile cli with
  | .error e => .err e
  | .ok cli_regex =>
    match get_options_from_config compile cli with
    | none => .panicked
    | some sc =>
      match cli_regex with
      | .CustomRegexEntries _ => .panicked
      | .CustomRegex r => .ok ⟨.CustomRegex r, sc.1, cli.allow_duplicates⟩
      | .DefaultRegex =>
        match sc.2 with
        | some entries => .ok ⟨.CustomRegexEntries entries, sc.1, cli.allow_duplicates⟩
        | none => .ok ⟨.DefaultRegex, sc.1, cli.allow_duplicates⟩

/-- Modelled from the spec: the driver (absent from src/) rewrites the file
bodies only when options construction succeeds; a construction error or panic
prevents any file from being rewritten. -/
def run_files (compile : Token → Option CompiledRegex) (cli : Cli) (texts : List Token) :
    BuildResult × List Token :=
  match Options.new_from_cli compile cli with
  | .ok options => (.ok options, texts.map (fun t => sort_file_contents t options))
  | r => (r, texts)

/-- Specification-side description of the canonical bucket: the tokens that
are precedence-table keys, paired with their ranks, in input order. -/
def canonPairs (g : Token → Option Nat) (l : List Token) : List (Token × Nat) :=
  l.filterMap (fun c => (g c).map (fun r => (c, r)))

/-- Specification-side description of the initially-custom bucket: tokens that
are neither table keys nor variant-prefixed. -/
def customInitSpec (vs : List Token) (g : Token → Option Nat) (l : List Token) : List Token :=
  l.filter (fun c => (g c).isNone && (variantPrefixOf vs c).isNone)

/-- Specification-side description of the variant group of prefix `p`: tokens
that are not table keys and whose first matching catalog prefix is `p`. -/
def groupOfSpec (vs : List Token) (g : Token → Option Nat) (p : Token) (l : List Token) : List Token :=
  l.filter (fun c => (g c).isNone && decide (variantPrefixOf vs c = some p))

/-- Specification-side description of the rankable part of a variant group:
tokens whose residual suffix is a table key, paired with its rank. -/
def knownPairsSpec (g : Token → Option Nat) (n : Nat) (l : List Token) : List (Token × Nat) :=
  l.filterMap (fun c => ((residualAt n c).bind g).map (fun r => (c, r)))

/-- Specification-side description of the deferred part of a variant group:
tokens whose residual suffix is not a table key. -/
def deferredSpec (g : Token → Option Nat) (n : Nat) (l : List Token) : List Token :=
  l.filter (fun c => ((residualAt n c).bind g).isNone)

/-- Specification-side description of the sorted output (spec section 4.2,
step 5): rank-sorted canonical bucket, then for each catalog prefix in order
its rank-sorted variant tokens, then the custom bucket — the initially-custom
tokens in discovery order followed by the deferred unknown-suffix variant
tokens, grouped by catalog prefix in order. -/
def scvSpec (vs : List Token) (g : Token → Option Nat) (l : List Token) : List Token :=
  (sortR (canonPairs g l)).map Prod.fst
  ++ (vs.map (fun p =>
        (sortR (knownPairsSpec g (p.length + 1) (groupOfSpec vs g p l))).map Prod.fst)).flatten
  ++ (customInitSpec vs g l
      ++ (vs.map (fun p => deferredSpec g (p.length + 1) (groupOfSpec vs g p l))).flatten)

/-- Specification-side index of the last occurrence of a class name in the
user-supplied ordered list. -/
def lastOccIdx : List Token → Token → Option Nat
  | [], _ => none
  | c :: cs, k =>
    match lastOccIdx cs k with
    | some i => some (i + 1)
    | none => if c = k then some 0 else none

/-- A harmless placeholder compiled matcher for construction tests. -/
def dummyRegex : RegexM := litRegex [] ['z'] []

/-- Concrete counterexample regex for splice locality: it matches the literal
`b a x b a` and captures the trailing `b a` (group 1). -/
def cexLocalRegex : RegexM :=
  litRegex ['b', ' ', 'a', ' ', 'x', ' '] ['b', ' ', 'a'] []

/-- Concrete two-token precedence table: `a` before `b`. -/
def sorterAB : List (Token × Nat) := [(['a'], 0), (['b'], 1)]

/-- Concrete counterexample text for splice locality. -/
def cexLocalText : Token := ['b', ' ', 'a', ' ', 'x', ' ', 'b', ' ', 'a']

/-- Options carrying the splice-locality counterexample regex. -/
def cexLocalOptions : Options :=
  ⟨.CustomRegex cexLocalRegex, .CustomSorter sorterAB, true⟩

/-- Concrete counterexample regex for idempotence: it matches the literal
`b a`, capturing the whole match as group 1 (a second empty group makes the
source pattern `(b a)()` acceptable to the CLI shape check). -/
def cexIdemRegex : RegexM := litRegex [] ['b', ' ', 'a'] []

/-- Concrete counterexample text for idempotence. -/
def cexIdemText : Token := ['b', ' ', 'a', ' ', 'b', ' ', 'a']

/-- Options carrying the idempotence counterexample regex. -/
def cexIdemOptions : Options :=
  ⟨.CustomRegex cexIdemRegex, .CustomSorter sorterAB, true⟩

/-- A container pattern (literal `zzz`) that matches none of the texts used in
the `has_classes` divergence below. -/
def zzzRegex : RegexM := litRegex [] ['z', 'z', 'z'] []

/-- Text on which only the default pattern matches. -/
def hcText : Token := ['c', 'l', 'a', 's', 's', '=', '"', 'b', ' ', 'a', '"']

/-- Options whose pattern set is a config-supplied pair list with a single
never-matching container pattern. -/
def hcOptions : Options :=
  ⟨.CustomRegexEntries [(zzzRegex, none)], .CustomSorter sorterAB, true⟩

/-- Compile function that fails on the pattern string `(` and succeeds on
everything else. -/
def compileFail (s : Token) : Option CompiledRegex :=
  if s = ['('] then none else some ⟨dummyRegex, 2⟩

/-- CLI input whose config file holds one non-compiling pattern entry. -/
def cliBadConfig : Cli := ⟨none, some ⟨none, some [.String ['(']]⟩, false⟩

/-- CLI input whose command-line pattern does not compile. -/
def cliBadCli : Cli := ⟨some ['('], none, false⟩

/-- Compile function that reports 2 capture groups for the pattern string `y`
and only 1 capture group for everything else. -/
def compileLen (s : Token) : Option CompiledRegex :=
  if s = ['y'] then some ⟨dummyRegex, 2⟩ else some ⟨dummyRegex, 1⟩

/-- CLI input whose command-line pattern compiles with too few capture groups. -/
def cliShape : Cli := ⟨some ['x'], none, false⟩

/-- CLI input whose command-line pattern compiles with enough capture groups. -/
def cliOk : Cli := ⟨some ['y'], none, false⟩

/-! Stable-sort lemmas for `sortR`. -/

theorem insertR_perm (x : Token × Nat) (l : List (Token × Nat)) :
    List.Perm (insertR x l) (x :: l) := by
  induction l with
  | nil => simp [insertR]
  | cons y ys ih =>
    simp only [insertR]
    by_cases h : y.2 ≤ x.2
    · rw [if_pos h]
      exact (ih.cons y).trans (List.Perm.swap x y ys)
    · rw [if_neg h]

theorem sortAux_perm (l : List (Token × Nat)) :
    ∀ acc, List.Perm (sortAux acc l) (acc ++ l) := by
  induction l with
  | nil => intro acc; simp [sortAux]
  | cons x xs ih =>
    intro acc
    show List.Perm (sortAux (insertR x acc) xs) (acc ++ x :: xs)
    exact (ih (insertR x acc)).trans
      (((insertR_perm x acc).append_right xs).trans List.perm_middle.symm)

theorem sortR_perm (l : List (Token × Nat)) : List.Perm (sortR l) l := by
  have h := sortAux_perm l []
  simpa [sortR] using h

theorem insertR_sorted (x : Token × Nat) (l : List (Token × Nat)) (h : RankSorted l) :
    RankSorted (insertR x l) := by
  induction l with
  | nil => simp [insertR, RankSorted]
  | cons y ys ih =>
    rw [RankSorted, List.pairwise_cons] at h
    simp only [insertR]
    by_cases hle : y.2 ≤ x.2
    · rw [if_pos hle]
      rw [RankSorted, List.pairwise_cons]
      refine ⟨fun b hb => ?_, ih h.2⟩
      rcases List.mem_cons.mp ((insertR_perm x ys).mem_iff.mp hb) with hb | hb
      · rw [hb]; exact hle
      · exact h.1 b hb
    · rw [if_neg hle]
      rw [RankSorted, List.pairwise_cons]
      refine ⟨fun b hb => ?_, ?_⟩
      · rcases List.mem_cons.mp hb with hb | hb
        · rw [hb]; exact le_of_lt (lt_of_not_le hle)
        · exact le_trans (le_of_lt (lt_of_not_le hle)) (h.1 b hb)
      · exact List.pairwise_cons.mpr h

theorem sortAux_sorted (l : List (Token × Nat)) :
    ∀ acc, RankSorted acc → RankSorted (sortAux acc l) := by
  induction l with
  | nil => intro acc h; exact h
  | cons x xs ih => intro acc h; exact ih (insertR x acc) (insertR_sorted x acc h)

theorem sortR_sorted (l : List (Token × Nat)) : RankSorted (sortR l) :=
  sortAux_sorted l [] List.Pairwise.nil

theorem insertR_self_sublist (x : Token × Nat) (l : List (Token × Nat)) :
    List.Sublist l (insertR x l) := by
  induction l with
  | nil => exact List.nil_sublist _
  | cons y ys ih =>
    simp only [insertR]
    by_cases h : y.2 ≤ x.2
    · rw [if_pos h]; exact List.cons_sublist_cons.mpr ih
    · rw [if_neg h]; exact List.sublist_cons_self x (y :: ys)

theorem insertR_pair_sublist (x a : Token × Nat) (l : List (Token × Nat))
    (hs : RankSorted l) (ha : a ∈ l) (hle : a.2 ≤ x.2) :
    List.Sublist [a, x] (insertR x l) := by
  induction l with
  | nil => cases ha
  | cons y ys ih =>
    rw [RankSorted, List.pairwise_cons] at hs
    simp only [insertR]
    by_cases hy : y.2 ≤ x.2
    · rw [if_pos hy]
      rcases List.mem_cons.mp ha with hay | hays
      · subst hay
        exact List.cons_sublist_cons.mpr
          (List.singleton_sublist.mpr ((insertR_perm x ys).mem_iff.mpr (List.mem_cons_self x ys)))
      · exact (ih hs.2 hays).cons y
    · exfalso
      rcases List.mem_cons.mp ha with hay | hays
      · exact hy (hay ▸ hle)
      · exact hy (le_trans (hs.1 a hays) hle)

theorem sortAux_before (a b : Token × Nat) (l : List (Token × Nat)) :
    ∀ acc, RankSorted acc →
      (List.Sublist [a, b] acc ∨ (a ∈ acc ∧ b ∈ l ∧ a.2 ≤ b.2)
        ∨ (List.Sublist [a, b] l ∧ a.2 ≤ b.2)) →
      List.Sublist [a, b] (sortAux acc l) := by
  induction l with
  | nil =>
    intro acc _ h
    rcases h with h | ⟨_, hb, _⟩ | ⟨h, _⟩
    · exact h
    · cases hb
    · rw [List.sublist_nil] at h; cases h
  | cons x xs ih =>
    intro acc hs h
    show List.Sublist [a, b] (sortAux (insertR x acc) xs)
    have hs' := insertR_sorted x acc hs
    rcases h with h | ⟨ha, hb, hab⟩ | ⟨h, hab⟩
    · exact ih (insertR x acc) hs' (Or.inl (h.trans (insertR_self_sublist x acc)))
    · rcases List.mem_cons.mp hb with hbx | hbxs
      · subst hbx
        exact ih (insertR b acc) hs' (Or.inl (insertR_pair_sublist b a acc hs ha hab))
      · exact ih (insertR x acc) hs'
          (Or.inr (Or.inl ⟨(insertR_perm x acc).mem_iff.mpr (List.mem_cons_of_mem x ha), hbxs, hab⟩))
    · cases h with
      | cons _ h2 => exact ih _ hs' (Or.inr (Or.inr ⟨h2, hab⟩))
      | cons₂ _ h2 =>
        exact ih _ hs'
          (Or.inr (Or.inl ⟨(insertR_perm a acc).mem_iff.mpr (List.mem_cons_self a acc),
            List.singleton_sublist.mp h2, hab⟩))

theorem sortR_before (a b : Token × Nat) (l : List (Token × Nat))
    (h : List.Sublist [a, b] l) (hab : a.2 ≤ b.2) :
    List.Sublist [a, b] (sortR l) :=
  sortAux_before a b l [] List.Pairwise.nil (Or.inr (Or.inr ⟨h, hab⟩))

theorem insertR_append (x : Token × Nat) (l : List (Token × Nat))
    (h : ∀ y ∈ l, y.2 ≤ x.2) : insertR x l = l ++ [x] := by
  induction l with
  | nil => rfl
  | cons y ys ih =>
    simp only [insertR]
    rw [if_pos (h y (List.mem_cons_self y ys)), ih (fun z hz => h z (List.mem_cons_of_mem y hz))]
    rfl

theorem sortAux_of_sorted (l : List (Token × Nat)) :
    ∀ acc, RankSorted (acc ++ l) → sortAux acc l = acc ++ l := by
  induction l with
  | nil => intro acc _; simp [sortAux]
  | cons x xs ih =>
    intro acc h
    have hax : ∀ y ∈ acc, y.2 ≤ x.2 := by
      rw [RankSorted, List.pairwise_append] at h
      exact fun y hy => h.2.2 y hy x (List.mem_cons_self x xs)
    show sortAux (insertR x acc) xs = acc ++ x :: xs
    rw [insertR_append x acc hax]
    have hre : acc ++ [x] ++ xs = acc ++ x :: xs := by simp
    rw [ih (acc ++ [x]) (by rw [RankSorted, hre]; exact h), hre]

theorem sortR_of_sorted (l : List (Token × Nat)) (h : RankSorted l) : sortR l = l := by
  have := sortAux_of_sorted l [] (by simpa [RankSorted] using h)
  simpa [sortR] using this

/-! Relative-position lemmas for two-element sublists. -/

theorem pair_sublist_total {α : Type} (a b : α) (l : List α)
    (ha : a ∈ l) (hb : b ∈ l) (hab : a ≠ b) :
    List.Sublist [a, b] l ∨ List.Sublist [b, a] l := by
  induction l with
  | nil => cases ha
  | cons x xs ih =>
    by_cases hax : a = x
    · subst hax
      have hbxs : b ∈ xs := by
        rcases List.mem_cons.mp hb with h | h
        · exact absurd h.symm hab
        · exact h
      exact Or.inl (List.cons_sublist_cons.mpr (List.singleton_sublist.mpr hbxs))
    · by_cases hbx : b = x
      · subst hbx
        have haxs : a ∈ xs := by
          rcases List.mem_cons.mp ha with h | h
          · exact absurd h hax
          · exact h
        exact Or.inr (List.cons_sublist_cons.mpr (List.singleton_sublist.mpr haxs))
      · rcases ih (List.mem_of_ne_of_mem hax ha) (List.mem_of_ne_of_mem hbx hb) with h | h
        · exact Or.inl (h.cons x)
        · exact Or.inr (h.cons x)

theorem one_le_count_of_mem : ∀ {l : List Token} {a : Token}, a ∈ l → 1 ≤ List.count a l := by
  intro l
  induction l with
  | nil => intro a h; cases h
  | cons x xs ih =>
    intro a h
    rw [List.count_cons]
    rcases List.mem_cons.mp h with hax | hmem
    · subst hax
      simp
    · have h1 := ih hmem
      by_cases hxa : (x == a) = true
      · rw [if_pos hxa]
        omega
      · rw [if_neg hxa]
        omega

theorem pair_sublist_asymm_count : ∀ {l : List Token} {a b : Token},
    a ≠ b → List.count a l = 1 → List.count b l = 1 →
    List.Sublist [a, b] l → List.Sublist [b, a] l → False := by
  intro l
  induction l with
  | nil =>
    intro a b _ _ _ h1 _
    rw [List.sublist_nil] at h1
    cases h1
  | cons x xs ih =>
    intro a b hab ha hb h1 h2
    rw [List.count_cons] at ha hb
    cases h1 with
    | cons _ h1' =>
      have hax : a ∈ xs := h1'.subset (List.mem_cons_self a [b])
      have hbx : b ∈ xs := h1'.subset (List.mem_cons_of_mem a (List.mem_cons_self b []))
      cases h2 with
      | cons _ h2' =>
        have ha' : List.count a xs = 1 := by
          have hge := one_le_count_of_mem hax
          by_cases hxa : (x == a) = true
          · rw [if_pos hxa] at ha
            omega
          · rw [if_neg hxa] at ha
            omega
        have hb' : List.count b xs = 1 := by
          have hge := one_le_count_of_mem hbx
          by_cases hxb : (x == b) = true
          · rw [if_pos hxb] at hb
            omega
          · rw [if_neg hxb] at hb
            omega
        exact ih hab ha' hb' h1' h2'
      | cons₂ _ h2' =>
        have hge := one_le_count_of_mem hbx
        rw [if_pos (beq_self_eq_true x)] at hb
        omega
    | cons₂ _ h1' =>
      cases h2 with
      | cons _ h2' =>
        have hax : x ∈ xs := h2'.subset (List.mem_cons_of_mem b (List.mem_cons_self x []))
        have hge := one_le_count_of_mem hax
        rw [if_pos (beq_self_eq_true x)] at ha
        omega
      | cons₂ _ h2' =>
        exact hab rfl

theorem sorted_pair_of_lt {a b : Token} {ra rb : Nat} {l : List (Token × Nat)}
    (hs : RankSorted l) (ha : (a, ra) ∈ l) (hb : (b, rb) ∈ l) (hlt : ra < rb) :
    List.Sublist [(a, ra), (b, rb)] l := by
  have hne : (a, ra) ≠ (b, rb) := by
    intro h
    cases h
    exact lt_irrefl _ hlt
  rcases pair_sublist_total (a, ra) (b, rb) l ha hb hne with h | h
  · exact h
  · exfalso
    have hp := List.Pairwise.sublist h hs
    rw [List.pairwise_cons] at hp
    exact absurd hlt (not_lt.mpr (hp.1 (a, ra) (List.mem_cons_self _ _)))

/-! Tokenizer lemmas: `splitWs`, `joinSp` and their round trip. -/

theorem splitWsF_nil (fuel : Nat) : splitWsF fuel [] = [] := by
  cases fuel <;> rfl

theorem splitWsF_congr : ∀ f1 f2 t, t.length ≤ f1 → t.length ≤ f2 →
    splitWsF f1 t = splitWsF f2 t := by
  intro f1
  induction f1 with
  | zero =>
    intro f2 t h1 _
    rw [Nat.le_zero, List.length_eq_zero] at h1
    subst h1
    rw [splitWsF_nil, splitWsF_nil]
  | succ f ih =>
    intro f2 t h1 h2
    cases t with
    | nil => rw [splitWsF_nil, splitWsF_nil]
    | cons c cs =>
      cases f2 with
      | zero => simp at h2
      | succ f2' =>
        rw [List.length_cons, Nat.succ_le_succ_iff] at h1 h2
        simp only [splitWsF]
        by_cases hws : isAsciiWs c
        · rw [if_pos hws, if_pos hws]
          exact ih f2' cs h1 h2
        · rw [if_neg hws, if_neg hws]
          congr 1
          exact ih f2' _ (le_trans (List.dropWhile_sublist nws).length_le h1)
            (le_trans (List.dropWhile_sublist nws).length_le h2)

theorem splitWs_nil : splitWs [] = [] := rfl

theorem splitWs_cons_ws (c : Char) (cs : Token) (h : isAsciiWs c = true) :
    splitWs (c :: cs) = splitWs cs := by
  show splitWsF (c :: cs).length (c :: cs) = splitWs cs
  rw [List.length_cons]
  simp only [splitWsF, h, if_true]
  rfl

theorem splitWs_cons_tok (c : Char) (cs : Token) (h : isAsciiWs c = false) :
    splitWs (c :: cs) = (c :: cs.takeWhile nws) :: splitWs (cs.dropWhile nws) := by
  show splitWsF (c :: cs).length (c :: cs) = _
  rw [List.length_cons]
  simp only [splitWsF, h, Bool.false_eq_true, if_false]
  congr 1
  exact splitWsF_congr cs.length _ _ (List.dropWhile_sublist nws).length_le (le_refl _)

theorem splitWsF_zero (t : Token) : splitWsF 0 t = [] := by
  cases t <;> rfl

theorem splitWsF_clean : ∀ fuel t tok, tok ∈ splitWsF fuel t →
    tok ≠ [] ∧ ∀ c ∈ tok, isAsciiWs c = false := by
  intro fuel
  induction fuel with
  | zero => intro t tok h; rw [splitWsF_zero] at h; cases h
  | succ f ih =>
    intro t tok h
    cases t with
    | nil => cases h
    | cons c cs =>
      simp only [splitWsF] at h
      by_cases hws : isAsciiWs c
      · rw [if_pos hws] at h
        exact ih cs tok h
      · rw [if_neg hws] at h
        rcases List.mem_cons.mp h with htok | h2
        · subst htok
          refine ⟨by simp, fun d hd => ?_⟩
          rcases List.mem_cons.mp hd with hd | hd2
          · rw [hd]; exact Bool.eq_false_iff.mpr hws
          · have := List.mem_takeWhile_imp hd2
            simpa [nws] using this
        · exact ih _ tok h2

theorem splitWs_clean (t tok : Token) (h : tok ∈ splitWs t) :
    tok ≠ [] ∧ ∀ c ∈ tok, isAsciiWs c = false :=
  splitWsF_clean t.length t tok h

theorem takeWhile_all_append {p : Char → Bool} (u : Token) (x : Char) (v : Token)
    (hu : ∀ c ∈ u, p c = true) (hx : p x = false) :
    (u ++ x :: v).takeWhile p = u ∧ (u ++ x :: v).dropWhile p = x :: v := by
  induction u with
  | nil => simp [List.takeWhile_cons, List.dropWhile_cons, hx]
  | cons c u ih =>
    have hc : p c = true := hu c (List.mem_cons_self c u)
    have ih2 := ih (fun d hd => hu d (List.mem_cons_of_mem c hd))
    constructor
    · rw [List.cons_append, List.takeWhile_cons, if_pos hc, ih2.1]
    · rw [List.cons_append, List.dropWhile_cons, if_pos hc, ih2.2]

theorem splitWs_joinSp : ∀ ts : List Token,
    (∀ tok ∈ ts, tok ≠ []) → (∀ tok ∈ ts, ∀ c ∈ tok, isAsciiWs c = false) →
    splitWs (joinSp ts) = ts := by
  intro ts
  induction ts with
  | nil => intro _ _; rfl
  | cons t ts ih =>
    intro h1 h2
    obtain ⟨c, t', ht⟩ : ∃ c t', t = c :: t' := by
      cases t with
      | nil => exact absurd rfl (h1 [] (List.mem_cons_self _ _))
      | cons c t' => exact ⟨c, t', rfl⟩
    subst ht
    have hc : isAsciiWs c = false := h2 _ (List.mem_cons_self _ _) c (List.mem_cons_self c t')
    have hall : ∀ d ∈ t', nws d = true := fun d hd => by
      simp [nws, h2 _ (List.mem_cons_self _ _) d (List.mem_cons_of_mem c hd)]
    cases ts with
    | nil =>
      show splitWs (c :: t') = [c :: t']
      rw [splitWs_cons_tok c t' hc]
      rw [List.takeWhile_eq_self_iff.mpr hall, List.dropWhile_eq_nil_iff.mpr hall, splitWs_nil]
    | cons t2 ts2 =>
      show splitWs ((c :: t') ++ ' ' :: joinSp (t2 :: ts2)) = (c :: t') :: t2 :: ts2
      rw [List.cons_append, splitWs_cons_tok c _ hc]
      obtain ⟨htw, hdw⟩ := takeWhile_all_append t' ' ' (joinSp (t2 :: ts2)) hall (by decide)
      rw [htw, hdw, splitWs_cons_ws ' ' _ (by decide)]
      rw [ih (fun tok h => h1 tok (List.mem_cons_of_mem _ h))
        (fun tok h => h2 tok (List.mem_cons_of_mem _ h))]

/-! Lemmas about `uniqueFirst`. -/

theorem mem_uniqueAux : ∀ (l seen : List Token) (t : Token),
    t ∈ uniqueAux seen l ↔ t ∈ l ∧ t ∉ seen := by
  intro l
  induction l with
  | nil => intro seen t; simp [uniqueAux]
  | cons x xs ih =>
    intro seen t
    simp only [uniqueAux]
    by_cases hx : x ∈ seen
    · rw [if_pos hx, ih]
      constructor
      · exact fun h => ⟨List.mem_cons_of_mem x h.1, h.2⟩
      · rintro ⟨h1, h2⟩
        rcases List.mem_cons.mp h1 with h | h
        · exact absurd (h ▸ hx) h2
        · exact ⟨h, h2⟩
    · rw [if_neg hx]
      constructor
      · intro h
        rcases List.mem_cons.mp h with h | h
        · exact ⟨h ▸ List.mem_cons_self x xs, h ▸ hx⟩
        · have := (ih (x :: seen) t).mp h
          exact ⟨List.mem_cons_of_mem x this.1,
            fun hs => this.2 (List.mem_cons_of_mem x hs)⟩
      · rintro ⟨h1, h2⟩
        rcases List.mem_cons.mp h1 with h | h
        · exact h ▸ List.mem_cons_self x _
        · by_cases htx : t = x
          · exact htx ▸ List.mem_cons_self x _
          · exact List.mem_cons_of_mem x ((ih (x :: seen) t).mpr
              ⟨h, fun hs => (List.mem_cons.mp hs).elim htx h2⟩)

theorem nodup_uniqueAux : ∀ (l seen : List Token), (uniqueAux seen l).Nodup := by
  intro l
  induction l with
  | nil => intro seen; exact List.nodup_nil
  | cons x xs ih =>
    intro seen
    simp only [uniqueAux]
    by_cases hx : x ∈ seen
    · rw [if_pos hx]; exact ih seen
    · rw [if_neg hx]
      rw [List.nodup_cons]
      refine ⟨fun h => ?_, ih (x :: seen)⟩
      exact ((mem_uniqueAux xs (x :: seen) x).mp h).2 (List.mem_cons_self x seen)

theorem uniqueAux_sublist : ∀ (l seen : List Token), List.Sublist (uniqueAux seen l) l := by
  intro l
  induction l with
  | nil => intro seen; exact List.nil_sublist _
  | cons x xs ih =>
    intro seen
    simp only [uniqueAux]
    by_cases hx : x ∈ seen
    · rw [if_pos hx]; exact (ih seen).cons x
    · rw [if_neg hx]; exact List.cons_sublist_cons.mpr (ih (x :: seen))

theorem uniqueAux_of_nodup : ∀ (l seen : List Token), l.Nodup →
    (∀ t ∈ l, t ∉ seen) → uniqueAux seen l = l := by
  intro l
  induction l with
  | nil => intro seen _ _; rfl
  | cons x xs ih =>
    intro seen hnd hdisj
    rw [List.nodup_cons] at hnd
    simp only [uniqueAux]
    rw [if_neg (hdisj x (List.mem_cons_self x xs))]
    rw [ih (x :: seen) hnd.2 (fun t ht hmem => ?_)]
    rcases List.mem_cons.mp hmem with h | h
    · exact hnd.1 (h ▸ ht)
    · exact hdisj t (List.mem_cons_of_mem x ht) h

theorem uniqueFirst_nodup (l : List Token) : (uniqueFirst l).Nodup :=
  nodup_uniqueAux l []

theorem uniqueFirst_sublist (l : List Token) : List.Sublist (uniqueFirst l) l :=
  uniqueAux_sublist l []

theorem mem_uniqueFirst (l : List Token) (t : Token) : t ∈ uniqueFirst l ↔ t ∈ l := by
  rw [uniqueFirst, mem_uniqueAux]
  simp

theorem uniqueFirst_of_nodup (l : List Token) (h : l.Nodup) : uniqueFirst l = l :=
  uniqueAux_of_nodup l [] h (by simp)

/-! Lemmas about the association-list hash map. -/

theorem hmLookup_insert (m : List (Token × Nat)) (k : Token) (v : Nat) (k2 : Token) :
    hmLookup (hmInsert m k v) k2 = if k = k2 then some v else hmLookup m k2 := by
  induction m with
  | nil => simp [hmInsert, hmLookup]
  | cons kv rest ih =>
    simp only [hmInsert]
    by_cases h1 : kv.1 = k
    · rw [if_pos h1]
      simp only [hmLookup]
      by_cases h2 : k = k2
      · rw [if_pos h2, if_pos h2]
      · rw [if_neg h2, if_neg h2, if_neg (fun hh : kv.1 = k2 => h2 (h1.symm.trans hh))]
    · rw [if_neg h1]
      simp only [hmLookup]
      by_cases h2 : kv.1 = k2
      · rw [if_pos h2, if_neg (fun hh : k = k2 => h1 (h2.trans hh.symm)), if_pos h2]
      · rw [if_neg h2, ih]
        by_cases h3 : k = k2
        · rw [if_pos h3, if_pos h3]
        · rw [if_neg h3, if_neg h3, if_neg h2]

theorem hmLookup_foldl_insert : ∀ (contents : List Token) (n : Nat)
    (m : List (Token × Nat)) (k : Token),
    hmLookup ((List.enumFrom n contents |>.map (fun p => (p.2, p.1))).foldl
      (fun m kv => hmInsert m kv.1 kv.2) m) k =
    match lastOccIdx contents k with
    | some i => some (n + i)
    | none => hmLookup m k := by
  intro contents
  induction contents with
  | nil => intro n m k; rfl
  | cons c cs ih =>
    intro n m k
    rw [List.enumFrom_cons]
    simp only [List.map_cons, List.foldl_cons]
    rw [ih (n + 1) (hmInsert m c n) k]
    simp only [lastOccIdx]
    cases hcs : lastOccIdx cs k with
    | some i =>
      show some (n + 1 + i) = some (n + (i + 1))
      congr 1
      omega
    | none =>
      show hmLookup (hmInsert m c n) k = _
      rw [hmLookup_insert]
      by_cases hck : c = k
      · rw [if_pos hck, if_pos hck]
        show some n = some (n + 0)
        rw [Nat.add_zero]
      · rw [if_neg hck, if_neg hck]

/-! Lemmas about the variant-group map. -/

theorem vmLookupD_consHead (vm : VarMap) (p c q : Token) :
    vmLookupD (vmConsHead vm p c) q =
      if p = q then c :: vmLookupD vm q else vmLookupD vm q := by
  induction vm with
  | nil => simp only [vmConsHead, vmLookupD]
  | cons e rest ih =>
    simp only [vmConsHead]
    by_cases h1 : e.1 = p
    · rw [if_pos h1]
      simp only [vmLookupD]
      by_cases h2 : p = q
      · rw [if_pos (h1.trans h2), if_pos h2, if_pos (h1.trans h2)]
      · rw [if_neg (fun hh : e.1 = q => h2 (h1.symm.trans hh)), if_neg h2,
          if_neg (fun hh : e.1 = q => h2 (h1.symm.trans hh))]
    · rw [if_neg h1]
      simp only [vmLookupD]
      by_cases h2 : e.1 = q
      · have h3 : ¬ p = q := fun hh => h1 (h2.trans hh.symm)
        rw [if_pos h2, if_neg h3, if_pos h2]
      · rw [if_neg h2, ih]
        by_cases h3 : p = q
        · rw [if_pos h3, if_pos h3, if_neg h2]
        · rw [if_neg h3, if_neg h3, if_neg h2]

theorem vmLookupD_remove (vm : VarMap) (p q : Token) :
    vmLookupD (vmRemove vm p) q = if p = q then [] else vmLookupD vm q := by
  induction vm with
  | nil =>
    simp only [vmRemove, List.filter_nil, vmLookupD]
    by_cases h : p = q
    · rw [if_pos h]
    · rw [if_neg h]
  | cons e rest ih =>
    simp only [vmRemove, List.filter_cons]
    by_cases h1 : e.1 = p
    · rw [if_neg (by simp [h1])]
      show vmLookupD (vmRemove rest p) q = _
      rw [ih]
      by_cases h2 : p = q
      · rw [if_pos h2, if_pos h2]
      · rw [if_neg h2, if_neg h2, vmLookupD,
          if_neg (fun hh : e.1 = q => h2 (h1.symm.trans hh))]
    · rw [if_pos (by simp [h1])]
      show vmLookupD (e :: vmRemove rest p) q = _
      simp only [vmLookupD]
      by_cases h2 : e.1 = q
      · rw [if_pos h2, if_neg (fun hh : p = q => h1 (h2.trans hh.symm)), if_pos h2]
      · rw [if_neg h2, ih]
        by_cases h3 : p = q
        · rw [if_pos h3, if_pos h3]
        · rw [if_neg h3, if_neg h3, if_neg h2]

/-! Lemmas relating the classification pass to its specification. -/

theorem classify_tailwind (vs : List Token) (g : Token → Option Nat) :
    ∀ l, (classify vs g l).tailwind_classes = canonPairs g l := by
  intro l
  induction l with
  | nil => rfl
  | cons c cs ih =>
    cases hg : g c with
    | some r =>
      simp only [classify, hg, canonPairs, List.filterMap_cons, Option.map_some']
      exact congrArg _ ih
    | none =>
      cases hv : variantPrefixOf vs c <;>
        simp only [classify, hg, hv, canonPairs, List.filterMap_cons, Option.map_none'] <;>
        exact ih

theorem classify_custom (vs : List Token) (g : Token → Option Nat) :
    ∀ l, (classify vs g l).custom_classes = customInitSpec vs g l := by
  intro l
  induction l with
  | nil => rfl
  | cons c cs ih =>
    cases hg : g c with
    | some r =>
      simp only [classify, hg, customInitSpec, List.filter_cons, Option.isNone_some,
        Bool.false_and, Bool.false_eq_true, if_false]
      exact ih
    | none =>
      cases hv : variantPrefixOf vs c with
      | some q =>
        simp only [classify, hg, hv, customInitSpec, List.filter_cons, Option.isNone_some,
          Option.isNone_none, Bool.true_and, Bool.false_eq_true, if_false]
        exact ih
      | none =>
        simp only [classify, hg, hv, customInitSpec, List.filter_cons, Option.isNone_none,
          Bool.true_and, if_true]
        exact congrArg _ ih

theorem classify_vmLookupD (vs : List Token) (g : Token → Option Nat) :
    ∀ l p, vmLookupD (classify vs g l).variants p = groupOfSpec vs g p l := by
  intro l
  induction l with
  | nil => intro p; rfl
  | cons c cs ih =>
    intro p
    cases hg : g c with
    | some r =>
      simp only [classify, hg, groupOfSpec, List.filter_cons, Option.isNone_some,
        Bool.false_and, Bool.false_eq_true, if_false]
      exact ih p
    | none =>
      cases hv : variantPrefixOf vs c with
      | some q =>
        simp only [classify, hg, hv, groupOfSpec, List.filter_cons, Option.isNone_none,
          Bool.true_and]
        rw [vmLookupD_consHead]
        by_cases hqp : q = p
        · rw [if_pos hqp, if_pos (by simp [hqp]), ih p]
          rfl
        · rw [if_neg hqp, if_neg (by simp [hqp]), ih p]
          rfl
      | none =>
        simp only [classify, hg, hv, groupOfSpec, List.filter_cons, Option.isNone_none,
          Bool.true_and]
        rw [if_neg (by simp), ih p]
        rfl

/-! Lemmas relating the variant-splitting pass to its specification. -/

theorem svcSplit_fst (g : Token → Option Nat) (n : Nat) :
    ∀ l, (svcSplit g n l).1 = knownPairsSpec g n l := by
  intro l
  induction l with
  | nil => rfl
  | cons c cs ih =>
    cases hr : (residualAt n c).bind g with
    | some r =>
      simp only [svcSplit, hr, knownPairsSpec, List.filterMap_cons, Option.map_some']
      exact congrArg _ ih
    | none =>
      simp only [svcSplit, hr, knownPairsSpec, List.filterMap_cons, Option.map_none']
      exact ih

theorem svcSplit_snd (g : Token → Option Nat) (n : Nat) :
    ∀ l, (svcSplit g n l).2 = deferredSpec g n l := by
  intro l
  induction l with
  | nil => rfl
  | cons c cs ih =>
    cases hr : (residualAt n c).bind g with
    | some r =>
      simp only [svcSplit, hr, deferredSpec, List.filter_cons, Option.isNone_some,
        Bool.false_eq_true, if_false]
      exact ih
    | none =>
      simp only [svcSplit, hr, deferredSpec, List.filter_cons, Option.isNone_none, if_true]
      exact congrArg _ ih

theorem sort_variant_classes_eq (classes custom : List Token) (n : Nat) (g : Token → Option Nat) :
    sort_variant_classes classes custom n g =
      ((sortR (knownPairsSpec g n classes)).map Prod.fst, custom ++ deferredSpec g n classes) := by
  simp only [sort_variant_classes]
  rw [svcSplit_fst, svcSplit_snd]

theorem variantLoop_eq (g : Token → Option Nat) (G : Token → List Token) :
    ∀ (ps : List Token), ps.Nodup → ∀ (vm : VarMap) (custom : List Token),
      (∀ p ∈ ps, vmLookupD vm p = G p) →
      variantLoop g vm custom ps =
        ((ps.map (fun p =>
            (sortR (knownPairsSpec g (p.length + 1) (G p))).map Prod.fst)).flatten,
         custom ++ (ps.map (fun p => deferredSpec g (p.length + 1) (G p))).flatten) := by
  intro ps
  induction ps with
  | nil => intro _ vm custom _; simp [variantLoop]
  | cons p ps ih =>
    intro hnd vm custom hG
    rw [List.nodup_cons] at hnd
    simp only [variantLoop]
    rw [hG p (List.mem_cons_self p ps), sort_variant_classes_eq]
    rw [ih hnd.2 (vmRemove vm p) _ (fun q hq => by
      rw [vmLookupD_remove, if_neg (fun hh : p = q => hnd.1 (hh ▸ hq)), hG q (List.mem_cons_of_mem p hq)])]
    simp only [List.map_cons, List.flatten_cons]
    rw [List.append_assoc]

/-! The bucket decomposition of `sort_classes_vec`. -/

theorem scv_decomp (vs : List Token) (g : Token → Option Nat) (l : List Token)
    (hvs : vs.Nodup) : sort_classes_vec vs g l = scvSpec vs g l := by
  simp only [sort_classes_vec]
  rw [classify_tailwind, classify_custom]
  rw [variantLoop_eq g (fun p => groupOfSpec vs g p l) vs hvs (classify vs g l).variants
    (customInitSpec vs g l) (fun p _ => classify_vmLookupD vs g l p)]
  rfl

/-! Membership characterisations of the specification-side buckets. -/

theorem mem_canonPairs_iff (g : Token → Option Nat) (m : List Token) (tok : Token) (r : Nat) :
    (tok, r) ∈ canonPairs g m ↔ tok ∈ m ∧ g tok = some r := by
  rw [canonPairs, List.mem_filterMap]
  constructor
  · rintro ⟨a, ha, hfa⟩
    cases hga : g a with
    | none => rw [hga] at hfa; cases hfa
    | some r' =>
      rw [hga, Option.map_some'] at hfa
      cases hfa
      exact ⟨ha, hga⟩
  · rintro ⟨hm, hg⟩
    exact ⟨tok, hm, by rw [hg, Option.map_some']⟩

theorem mem_knownPairsSpec_iff (g : Token → Option Nat) (n : Nat) (m : List Token)
    (tok : Token) (r : Nat) :
    (tok, r) ∈ knownPairsSpec g n m ↔ tok ∈ m ∧ (residualAt n tok).bind g = some r := by
  rw [knownPairsSpec, List.mem_filterMap]
  constructor
  · rintro ⟨a, ha, hfa⟩
    cases hga : (residualAt n a).bind g with
    | none => rw [hga] at hfa; cases hfa
    | some r' =>
      rw [hga, Option.map_some'] at hfa
      cases hfa
      exact ⟨ha, hga⟩
  · rintro ⟨hm, hg⟩
    exact ⟨tok, hm, by rw [hg, Option.map_some']⟩

theorem mem_groupOfSpec_iff (vs : List Token) (g : Token → Option Nat) (p : Token)
    (m : List Token) (tok : Token) :
    tok ∈ groupOfSpec vs g p m ↔ tok ∈ m ∧ g tok = none ∧ variantPrefixOf vs tok = some p := by
  rw [groupOfSpec, List.mem_filter, Bool.and_eq_true, decide_eq_true_eq,
    Option.isNone_iff_eq_none]

theorem mem_customInitSpec_iff (vs : List Token) (g : Token → Option Nat)
    (m : List Token) (tok : Token) :
    tok ∈ customInitSpec vs g m ↔ tok ∈ m ∧ g tok = none ∧ variantPrefixOf vs tok = none := by
  rw [customInitSpec, List.mem_filter, Bool.and_eq_true, Option.isNone_iff_eq_none,
    Option.isNone_iff_eq_none]

theorem mem_deferredSpec_iff (g : Token → Option Nat) (n : Nat) (m : List Token) (tok : Token) :
    tok ∈ deferredSpec g n m ↔ tok ∈ m ∧ (residualAt n tok).bind g = none := by
  rw [deferredSpec, List.mem_filter, Option.isNone_iff_eq_none]

theorem mem_map_fst_sortR (pairs : List (Token × Nat)) (tok : Token) :
    tok ∈ (sortR pairs).map Prod.fst ↔ ∃ r, (tok, r) ∈ pairs := by
  rw [List.mem_map]
  constructor
  · rintro ⟨x, hx, rfl⟩
    refine ⟨x.2, ?_⟩
    rw [Prod.mk.eta]
    exact (sortR_perm pairs).mem_iff.mp hx
  · rintro ⟨r, hr⟩
    exact ⟨(tok, r), (sortR_perm pairs).mem_iff.mpr hr, rfl⟩

theorem variantPrefixOf_mem {vs : List Token} {c q : Token}
    (h : variantPrefixOf vs c = some q) : q ∈ vs :=
  List.mem_of_find?_eq_some h

/-! Map-level descriptions of the bucket projections. -/

theorem canonPairs_map_fst (g : Token → Option Nat) :
    ∀ m, (canonPairs g m).map Prod.fst = m.filter (fun c => (g c).isSome) := by
  intro m
  induction m with
  | nil => rfl
  | cons c cs ih =>
    cases hg : g c with
    | some r =>
      simp only [canonPairs, List.filterMap_cons, hg, Option.map_some', List.map_cons,
        List.filter_cons, Option.isSome_some, if_true]
      exact congrArg _ ih
    | none =>
      simp only [canonPairs, List.filterMap_cons, hg, Option.map_none', List.filter_cons,
        Option.isSome_none, Bool.false_eq_true, if_false]
      exact ih

theorem knownPairsSpec_map_fst (g : Token → Option Nat) (n : Nat) :
    ∀ m, (knownPairsSpec g n m).map Prod.fst
      = m.filter (fun c => ((residualAt n c).bind g).isSome) := by
  intro m
  induction m with
  | nil => rfl
  | cons c cs ih =>
    cases hg : (residualAt n c).bind g with
    | some r =>
      simp only [knownPairsSpec, List.filterMap_cons, hg, Option.map_some', List.map_cons,
        List.filter_cons, Option.isSome_some, if_true]
      exact congrArg _ ih
    | none =>
      simp only [knownPairsSpec, List.filterMap_cons, hg, Option.map_none', List.filter_cons,
        Option.isSome_none, Bool.false_eq_true, if_false]
      exact ih

/-! Generic flatten and permutation helpers. -/

theorem flatten_map_perm {β : Type} (vs : List Token) (F G : Token → List β)
    (h : ∀ p ∈ vs, List.Perm (F p) (G p)) :
    List.Perm ((vs.map F).flatten) ((vs.map G).flatten) := by
  induction vs with
  | nil => exact List.Perm.refl _
  | cons p ps ih =>
    simp only [List.map_cons, List.flatten_cons]
    exact (h p (List.mem_cons_self p ps)).append
      (ih (fun q hq => h q (List.mem_cons_of_mem p hq)))

theorem flatten_map_append_perm {β : Type} (vs : List Token) (F G : Token → List β) :
    List.Perm ((vs.map (fun p => F p ++ G p)).flatten)
      ((vs.map F).flatten ++ (vs.map G).flatten) := by
  induction vs with
  | nil => exact List.Perm.refl _
  | cons p ps ih =>
    simp only [List.map_cons, List.flatten_cons]
    refine (ih.append_left (F p ++ G p)).trans ?_
    rw [List.append_assoc, List.append_assoc]
    exact ((List.perm_append_comm_assoc (G p) ((ps.map F).flatten)
      ((ps.map G).flatten))).append_left (F p)

theorem partition_perm (f : Token → Option Token) :
    ∀ (vs : List Token), vs.Nodup →
      ∀ (l : List Token), (∀ c ∈ l, ∀ q, f c = some q → q ∈ vs) →
      List.Perm
        ((vs.map (fun p => l.filter (fun c => decide (f c = some p)))).flatten
          ++ l.filter (fun c => (f c).isNone)) l := by
  intro vs
  induction vs with
  | nil =>
    intro _ l hf
    have hall : ∀ c ∈ l, (f c).isNone = true := by
      intro c hc
      cases hfc : f c with
      | none => rfl
      | some q => exact absurd (hf c hc q hfc) (List.not_mem_nil q)
    simp only [List.map_nil, List.flatten_nil, List.nil_append]
    rw [List.filter_eq_self.mpr hall]
  | cons p vs ih =>
    intro hnd l hf
    rw [List.nodup_cons] at hnd
    simp only [List.map_cons, List.flatten_cons, List.append_assoc]
    have hgq : ∀ q ∈ vs, l.filter (fun c => decide (f c = some q))
        = (l.filter (fun c => !decide (f c = some p))).filter
            (fun c => decide (f c = some q)) := by
      intro q hq
      rw [List.filter_filter]
      refine (List.filter_congr ?_).symm
      intro c _
      by_cases hfc : f c = some q
      · have hqp : ¬ q = p := fun hh => hnd.1 (hh ▸ hq)
        simp [hfc, hqp]
      · simp [hfc]
    have hnone : l.filter (fun c => (f c).isNone)
        = (l.filter (fun c => !decide (f c = some p))).filter (fun c => (f c).isNone) := by
      rw [List.filter_filter]
      refine (List.filter_congr ?_).symm
      intro c _
      cases hfc : f c with
      | none => simp [hfc]
      | some q => simp [hfc]
    rw [List.map_congr_left hgq, hnone]
    have hrec := ih hnd.2 (l.filter (fun c => !decide (f c = some p))) (by
      intro c hc q hfc
      have hcl := List.mem_filter.mp hc
      rcases List.mem_cons.mp (hf c hcl.1 q hfc) with hqp | hqv
      · exfalso
        have := hcl.2
        rw [hqp] at hfc
        simp [hfc] at this
      · exact hqv)
    exact (hrec.append_left _).trans (List.filter_append_perm _ l)

theorem scvSpec_perm (vs : List Token) (g : Token → Option Nat) (l : List Token)
    (hvs : vs.Nodup) : List.Perm (scvSpec vs g l) l := by
  have hcanon : List.Perm ((sortR (canonPairs g l)).map Prod.fst)
      (l.filter (fun c => (g c).isSome)) := by
    rw [← canonPairs_map_fst]
    exact (sortR_perm (canonPairs g l)).map Prod.fst
  have hgroup : ∀ p, groupOfSpec vs g p l
      = (l.filter (fun c => (g c).isNone)).filter
          (fun c => decide (variantPrefixOf vs c = some p)) := by
    intro p
    rw [List.filter_filter]
    refine List.filter_congr ?_
    intro c _
    rw [Bool.and_comm]
  have hcust : customInitSpec vs g l
      = (l.filter (fun c => (g c).isNone)).filter
          (fun c => (variantPrefixOf vs c).isNone) := by
    rw [customInitSpec, List.filter_filter]
    refine List.filter_congr ?_
    intro c _
    rw [Bool.and_comm]
  have hSK : ∀ p ∈ vs, List.Perm
      ((sortR (knownPairsSpec g (p.length + 1) (groupOfSpec vs g p l))).map Prod.fst)
      ((groupOfSpec vs g p l).filter
        (fun c => ((residualAt (p.length + 1) c).bind g).isSome)) := by
    intro p _
    rw [← knownPairsSpec_map_fst]
    exact (sortR_perm _).map Prod.fst
  have hKD : ∀ p ∈ vs, List.Perm
      (((groupOfSpec vs g p l).filter
          (fun c => ((residualAt (p.length + 1) c).bind g).isSome))
        ++ deferredSpec g (p.length + 1) (groupOfSpec vs g p l))
      (groupOfSpec vs g p l) := by
    intro p _
    have heq : (groupOfSpec vs g p l).filter
        (fun c => !((residualAt (p.length + 1) c).bind g).isSome)
        = deferredSpec g (p.length + 1) (groupOfSpec vs g p l) := by
      refine List.filter_congr ?_
      intro c _
      cases (residualAt (p.length + 1) c).bind g <;> rfl
    rw [← heq]
    exact List.filter_append_perm _ _
  have h1 : List.Perm
      ((vs.map (fun p =>
          (sortR (knownPairsSpec g (p.length + 1) (groupOfSpec vs g p l))).map Prod.fst)).flatten)
      ((vs.map (fun p => (groupOfSpec vs g p l).filter
          (fun c => ((residualAt (p.length + 1) c).bind g).isSome))).flatten) :=
    flatten_map_perm vs _ _ hSK
  have h3 : List.Perm
      (((vs.map (fun p => (groupOfSpec vs g p l).filter
          (fun c => ((residualAt (p.length + 1) c).bind g).isSome))).flatten)
        ++ (vs.map (fun p => deferredSpec g (p.length + 1) (groupOfSpec vs g p l))).flatten)
      ((vs.map (fun p => groupOfSpec vs g p l)).flatten) :=
    (flatten_map_append_perm vs _ _).symm.trans (flatten_map_perm vs _ _ hKD)
  have h5 : List.Perm
      ((vs.map (fun p => groupOfSpec vs g p l)).flatten ++ customInitSpec vs g l)
      (l.filter (fun c => (g c).isNone)) := by
    have hmap : vs.map (fun p => groupOfSpec vs g p l)
        = vs.map (fun p => (l.filter (fun c => (g c).isNone)).filter
            (fun c => decide (variantPrefixOf vs c = some p))) :=
      List.map_congr_left (fun p _ => hgroup p)
    rw [hmap, hcust]
    exact partition_perm (variantPrefixOf vs) vs hvs _
      (fun c _ q hq => variantPrefixOf_mem hq)
  have hres : List.Perm
      ((vs.map (fun p =>
          (sortR (knownPairsSpec g (p.length + 1) (groupOfSpec vs g p l))).map Prod.fst)).flatten
        ++ (customInitSpec vs g l
            ++ (vs.map (fun p => deferredSpec g (p.length + 1) (groupOfSpec vs g p l))).flatten))
      (l.filter (fun c => (g c).isNone)) := by
    refine (h1.append_right _).trans ?_
    refine (List.perm_append_comm_assoc _ _ _).trans ?_
    refine (h3.append_left (customInitSpec vs g l)).trans ?_
    exact List.perm_append_comm.trans h5
  rw [scvSpec, List.append_assoc]
  refine (hcanon.append hres).trans ?_
  have heqn : l.filter (fun x => !(g x).isSome) = l.filter (fun c => (g c).isNone) :=
    List.filter_congr (fun c _ => by cases g c <;> rfl)
  have hfin := List.filter_append_perm (fun c => (g c).isSome) l
  rw [heqn] at hfin
  exact hfin

theorem scv_perm (vs : List Token) (g : Token → Option Nat) (l : List Token)
    (hvs : vs.Nodup) : List.Perm (sort_classes_vec vs g l) l := by
  rw [scv_decomp vs g l hvs]
  exact scvSpec_perm vs g l hvs

/-! Helper lemmas for the fixed-point property of the sorter. -/

theorem canonPairs_append (g : Token → Option Nat) (m1 m2 : List Token) :
    canonPairs g (m1 ++ m2) = canonPairs g m1 ++ canonPairs g m2 := by
  rw [canonPairs, canonPairs, canonPairs, List.filterMap_append]

theorem canonPairs_eq_nil (g : Token → Option Nat) (m : List Token)
    (h : ∀ c ∈ m, g c = none) : canonPairs g m = [] := by
  rw [canonPairs, List.filterMap_eq_nil_iff]
  intro c hc
  rw [h c hc, Option.map_none']

theorem canonPairs_cons (g : Token → Option Nat) (c : Token) (m : List Token) :
    canonPairs g (c :: m) =
      match g c with
      | some r => (c, r) :: canonPairs g m
      | none => canonPairs g m := by
  cases hg : g c <;> simp [canonPairs, List.filterMap_cons, hg]

theorem canonPairs_reconstruct (g : Token → Option Nat) :
    ∀ pairs : List (Token × Nat), (∀ x ∈ pairs, g x.1 = some x.2) →
      canonPairs g (pairs.map Prod.fst) = pairs := by
  intro pairs
  induction pairs with
  | nil => intro _; rfl
  | cons x xs ih =>
    intro h
    rw [List.map_cons, canonPairs_cons, h x (List.mem_cons_self x xs)]
    show (x.1, x.2) :: canonPairs g (xs.map Prod.fst) = x :: xs
    rw [Prod.mk.eta, ih (fun y hy => h y (List.mem_cons_of_mem x hy))]

theorem knownPairsSpec_append (g : Token → Option Nat) (n : Nat) (m1 m2 : List Token) :
    knownPairsSpec g n (m1 ++ m2) = knownPairsSpec g n m1 ++ knownPairsSpec g n m2 := by
  rw [knownPairsSpec, knownPairsSpec, knownPairsSpec, List.filterMap_append]

theorem knownPairsSpec_eq_nil (g : Token → Option Nat) (n : Nat) (m : List Token)
    (h : ∀ c ∈ m, (residualAt n c).bind g = none) : knownPairsSpec g n m = [] := by
  rw [knownPairsSpec, List.filterMap_eq_nil_iff]
  intro c hc
  rw [h c hc, Option.map_none']

theorem knownPairsSpec_cons (g : Token → Option Nat) (n : Nat) (c : Token) (m : List Token) :
    knownPairsSpec g n (c :: m) =
      match (residualAt n c).bind g with
      | some r => (c, r) :: knownPairsSpec g n m
      | none => knownPairsSpec g n m := by
  rw [knownPairsSpec, List.filterMap_cons]
  cases hr : residualAt n c with
  | none => simp [hr, knownPairsSpec]
  | some s =>
    cases hg : g s with
    | none => simp [hr, hg, knownPairsSpec]
    | some r => simp [hr, hg, knownPairsSpec]

theorem knownPairsSpec_reconstruct (g : Token → Option Nat) (n : Nat) :
    ∀ pairs : List (Token × Nat), (∀ x ∈ pairs, (residualAt n x.1).bind g = some x.2) →
      knownPairsSpec g n (pairs.map Prod.fst) = pairs := by
  intro pairs
  induction pairs with
  | nil => intro _; rfl
  | cons x xs ih =>
    intro h
    rw [List.map_cons, knownPairsSpec_cons, h x (List.mem_cons_self x xs)]
    show (x.1, x.2) :: knownPairsSpec g n (xs.map Prod.fst) = x :: xs
    rw [Prod.mk.eta, ih (fun y hy => h y (List.mem_cons_of_mem x hy))]

theorem flatten_map_eq_nil {β : Type} (vs : List Token) (F : Token → List β)
    (h : ∀ p ∈ vs, F p = []) : (vs.map F).flatten = [] := by
  induction vs with
  | nil => rfl
  | cons p ps ih =>
    simp only [List.map_cons, List.flatten_cons, h p (List.mem_cons_self p ps), List.nil_append]
    exact ih (fun q hq => h q (List.mem_cons_of_mem p hq))

theorem flatten_map_single {β : Type} (vs : List Token) (hvs : vs.Nodup) (p : Token)
    (hp : p ∈ vs) (F : Token → List β) (X : List β)
    (h : ∀ q ∈ vs, F q = if q = p then X else []) : (vs.map F).flatten = X := by
  induction vs with
  | nil => cases hp
  | cons v ps ih =>
    rw [List.nodup_cons] at hvs
    simp only [List.map_cons, List.flatten_cons]
    rcases List.mem_cons.mp hp with hvp | hp'
    · have hnil : (ps.map F).flatten = [] := flatten_map_eq_nil ps F (fun q hq => by
        rw [h q (List.mem_cons_of_mem v hq),
          if_neg (fun hqp : q = p => hvs.1 (by rw [← hvp, ← hqp]; exact hq))])
      rw [h v (List.mem_cons_self v ps), if_pos hvp.symm, hnil, List.append_nil]
    · rw [h v (List.mem_cons_self v ps),
        if_neg (fun hvp : v = p => hvs.1 (by rw [hvp]; exact hp')), List.nil_append]
      exact ih hvs.2 hp' (fun q hq => h q (List.mem_cons_of_mem v hq))

theorem filter_flatten_map {β : Type} (P : β → Bool) (vs : List Token) (F : Token → List β) :
    List.filter P (vs.map F).flatten = (vs.map (fun p => List.filter P (F p))).flatten := by
  induction vs with
  | nil => rfl
  | cons p ps ih => simp only [List.map_cons, List.flatten_cons, List.filter_append, ih]

theorem mem_canonPairs_pair (g : Token → Option Nat) (m : List Token) (x : Token × Nat) :
    x ∈ canonPairs g m ↔ x.1 ∈ m ∧ g x.1 = some x.2 := by
  obtain ⟨t, r⟩ := x
  exact mem_canonPairs_iff g m t r

theorem mem_knownPairsSpec_pair (g : Token → Option Nat) (n : Nat) (m : List Token)
    (x : Token × Nat) :
    x ∈ knownPairsSpec g n m ↔ x.1 ∈ m ∧ (residualAt n x.1).bind g = some x.2 := by
  obtain ⟨t, r⟩ := x
  exact mem_knownPairsSpec_iff g n m t r

theorem scvSpec_of_shape (vs : List Token) (g : Token → Option Nat) (hvs : vs.Nodup)
    (cpairs : List (Token × Nat)) (kp : Token → List (Token × Nat))
    (ci : List Token) (dp : Token → List Token)
    (hcp : RankSorted cpairs)
    (hcpg : ∀ x ∈ cpairs, g x.1 = some x.2)
    (hkp : ∀ p ∈ vs, RankSorted (kp p))
    (hkpg : ∀ p ∈ vs, ∀ x ∈ kp p, g x.1 = none ∧ variantPrefixOf vs x.1 = some p
        ∧ (residualAt (p.length + 1) x.1).bind g = some x.2)
    (hci : ∀ c ∈ ci, g c = none ∧ variantPrefixOf vs c = none)
    (hdp : ∀ p ∈ vs, ∀ c ∈ dp p, g c = none ∧ variantPrefixOf vs c = some p
        ∧ (residualAt (p.length + 1) c).bind g = none) :
    scvSpec vs g (cpairs.map Prod.fst
        ++ (vs.map (fun p => (kp p).map Prod.fst)).flatten
        ++ (ci ++ (vs.map dp).flatten))
      = cpairs.map Prod.fst
        ++ (vs.map (fun p => (kp p).map Prod.fst)).flatten
        ++ (ci ++ (vs.map dp).flatten) := by
  have hBmem : ∀ tok ∈ (vs.map (fun p => (kp p).map Prod.fst)).flatten,
      ∃ p ∈ vs, ∃ x ∈ kp p, x.1 = tok := by
    intro tok h
    rw [List.mem_flatten] at h
    obtain ⟨seg, hseg, htok⟩ := h
    rw [List.mem_map] at hseg
    obtain ⟨p, hp, hseg⟩ := hseg
    subst hseg
    rw [List.mem_map] at htok
    obtain ⟨x, hx, hx1⟩ := htok
    exact ⟨p, hp, x, hx, hx1⟩
  have hFmem : ∀ tok ∈ (vs.map dp).flatten, ∃ p ∈ vs, tok ∈ dp p := by
    intro tok h
    rw [List.mem_flatten] at h
    obtain ⟨seg, hseg, htok⟩ := h
    rw [List.mem_map] at hseg
    obtain ⟨p, hp, hseg⟩ := hseg
    exact ⟨p, hp, hseg ▸ htok⟩
  have hA : canonPairs g (cpairs.map Prod.fst
      ++ (vs.map (fun p => (kp p).map Prod.fst)).flatten
      ++ (ci ++ (vs.map dp).flatten)) = cpairs := by
    have hB0 : canonPairs g ((vs.map (fun p => (kp p).map Prod.fst)).flatten) = [] :=
      canonPairs_eq_nil g _ (fun c hc => by
        obtain ⟨p, hp, x, hx, hx1⟩ := hBmem c hc
        exact hx1 ▸ (hkpg p hp x hx).1)
    have hF0 : canonPairs g ((vs.map dp).flatten) = [] :=
      canonPairs_eq_nil g _ (fun c hc => by
        obtain ⟨p, hp, hcdp⟩ := hFmem c hc
        exact (hdp p hp c hcdp).1)
    have hE0 : canonPairs g ci = [] := canonPairs_eq_nil g ci (fun c hc => (hci c hc).1)
    rw [canonPairs_append, canonPairs_append, canonPairs_append,
      canonPairs_reconstruct g cpairs hcpg, hB0, hE0, hF0]
    simp
  have hGroup : ∀ p ∈ vs, groupOfSpec vs g p (cpairs.map Prod.fst
      ++ (vs.map (fun p => (kp p).map Prod.fst)).flatten
      ++ (ci ++ (vs.map dp).flatten)) = (kp p).map Prod.fst ++ dp p := by
    intro p hp
    have hA0 : List.filter (fun c => (g c).isNone && decide (variantPrefixOf vs c = some p))
        (cpairs.map Prod.fst) = [] := by
      rw [List.filter_eq_nil_iff]
      intro c hc
      rw [List.mem_map] at hc
      obtain ⟨x, hx, hx1⟩ := hc
      subst hx1
      rw [hcpg x hx]
      simp
    have hB1 : List.filter (fun c => (g c).isNone && decide (variantPrefixOf vs c = some p))
        ((vs.map (fun q => (kp q).map Prod.fst)).flatten) = (kp p).map Prod.fst := by
      rw [filter_flatten_map]
      refine flatten_map_single vs hvs p hp _ _ ?_
      intro q hq
      by_cases hqp : q = p
      · subst hqp
        rw [if_pos rfl]
        refine List.filter_eq_self.mpr ?_
        intro c hc
        rw [List.mem_map] at hc
        obtain ⟨x, hx, hx1⟩ := hc
        subst hx1
        rw [(hkpg q hq x hx).1, (hkpg q hq x hx).2.1]
        simp
      · rw [if_neg hqp, List.filter_eq_nil_iff]
        intro c hc
        rw [List.mem_map] at hc
        obtain ⟨x, hx, hx1⟩ := hc
        subst hx1
        rw [(hkpg q hq x hx).1, (hkpg q hq x hx).2.1]
        simp [hqp]
    have hE1 : List.filter (fun c => (g c).isNone && decide (variantPrefixOf vs c = some p))
        ci = [] := by
      rw [List.filter_eq_nil_iff]
      intro c hc
      rw [(hci c hc).1, (hci c hc).2]
      simp
    have hF1 : List.filter (fun c => (g c).isNone && decide (variantPrefixOf vs c = some p))
        ((vs.map dp).flatten) = dp p := by
      rw [filter_flatten_map]
      refine flatten_map_single vs hvs p hp _ _ ?_
      intro q hq
      by_cases hqp : q = p
      · subst hqp
        rw [if_pos rfl]
        refine List.filter_eq_self.mpr ?_
        intro c hc
        rw [(hdp q hq c hc).1, (hdp q hq c hc).2.1]
        simp
      · rw [if_neg hqp, List.filter_eq_nil_iff]
        intro c hc
        rw [(hdp q hq c hc).1, (hdp q hq c hc).2.1]
        simp [hqp]
    rw [groupOfSpec, List.filter_append, List.filter_append, List.filter_append,
      hA0, hB1, hE1, hF1]
    simp
  have hCust : customInitSpec vs g (cpairs.map Prod.fst
      ++ (vs.map (fun p => (kp p).map Prod.fst)).flatten
      ++ (ci ++ (vs.map dp).flatten)) = ci := by
    have hA0 : List.filter (fun c => (g c).isNone && (variantPrefixOf vs c).isNone)
        (cpairs.map Prod.fst) = [] := by
      rw [List.filter_eq_nil_iff]
      intro c hc
      rw [List.mem_map] at hc
      obtain ⟨x, hx, hx1⟩ := hc
      subst hx1
      rw [hcpg x hx]
      simp
    have hB1 : List.filter (fun c => (g c).isNone && (variantPrefixOf vs c).isNone)
        ((vs.map (fun q => (kp q).map Prod.fst)).flatten) = [] := by
      rw [filter_flatten_map]
      refine flatten_map_eq_nil vs _ ?_
      intro q hq
      rw [List.filter_eq_nil_iff]
      intro c hc
      rw [List.mem_map] at hc
      obtain ⟨x, hx, hx1⟩ := hc
      subst hx1
      rw [(hkpg q hq x hx).2.1]
      simp
    have hE1 : List.filter (fun c => (g c).isNone && (variantPrefixOf vs c).isNone) ci = ci := by
      refine List.filter_eq_self.mpr ?_
      intro c hc
      rw [(hci c hc).1, (hci c hc).2]
      rfl
    have hF1 : List.filter (fun c => (g c).isNone && (variantPrefixOf vs c).isNone)
        ((vs.map dp).flatten) = [] := by
      rw [filter_flatten_map]
      refine flatten_map_eq_nil vs _ ?_
      intro q hq
      rw [List.filter_eq_nil_iff]
      intro c hc
      rw [(hdp q hq c hc).2.1]
      simp
    rw [customInitSpec, List.filter_append, List.filter_append, List.filter_append,
      hA0, hB1, hE1, hF1]
    simp
  have hKnown : ∀ p ∈ vs,
      knownPairsSpec g (p.length + 1) ((kp p).map Prod.fst ++ dp p) = kp p := by
    intro p hp
    rw [knownPairsSpec_append,
      knownPairsSpec_reconstruct g _ (kp p) (fun x hx => (hkpg p hp x hx).2.2),
      knownPairsSpec_eq_nil g _ (dp p) (fun c hc => (hdp p hp c hc).2.2), List.append_nil]
  have hDef : ∀ p ∈ vs,
      deferredSpec g (p.length + 1) ((kp p).map Prod.fst ++ dp p) = dp p := by
    intro p hp
    have h1 : List.filter (fun c => ((residualAt (p.length + 1) c).bind g).isNone)
        ((kp p).map Prod.fst) = [] := by
      rw [List.filter_eq_nil_iff]
      intro c hc
      rw [List.mem_map] at hc
      obtain ⟨x, hx, hx1⟩ := hc
      subst hx1
      rw [(hkpg p hp x hx).2.2]
      simp
    have h2 : List.filter (fun c => ((residualAt (p.length + 1) c).bind g).isNone) (dp p)
        = dp p := by
      refine List.filter_eq_self.mpr ?_
      intro c hc
      rw [(hdp p hp c hc).2.2]
      rfl
    rw [deferredSpec, List.filter_append, h1, h2, List.nil_append]
  have hMapS : vs.map (fun p => (sortR (knownPairsSpec g (p.length + 1)
        (groupOfSpec vs g p (cpairs.map Prod.fst
          ++ (vs.map (fun p => (kp p).map Prod.fst)).flatten
          ++ (ci ++ (vs.map dp).flatten))))).map Prod.fst)
      = vs.map (fun p => (kp p).map Prod.fst) :=
    List.map_congr_left (fun p hp => by
      rw [hGroup p hp, hKnown p hp, sortR_of_sorted (kp p) (hkp p hp)])
  have hMapD : vs.map (fun p => deferredSpec g (p.length + 1)
        (groupOfSpec vs g p (cpairs.map Prod.fst
          ++ (vs.map (fun p => (kp p).map Prod.fst)).flatten
          ++ (ci ++ (vs.map dp).flatten))))
      = vs.map dp :=
    List.map_congr_left (fun p hp => by rw [hGroup p hp, hDef p hp])
  rw [scvSpec, hA, sortR_of_sorted cpairs hcp, hMapS, hCust, hMapD]

theorem scvSpec_fixed (vs : List Token) (g : Token → Option Nat) (l : List Token)
    (hvs : vs.Nodup) : scvSpec vs g (scvSpec vs g l) = scvSpec vs g l := by
  have h := scvSpec_of_shape vs g hvs (sortR (canonPairs g l))
    (fun p => sortR (knownPairsSpec g (p.length + 1) (groupOfSpec vs g p l)))
    (customInitSpec vs g l)
    (fun p => deferredSpec g (p.length + 1) (groupOfSpec vs g p l))
    (sortR_sorted _)
    (fun x hx => ((mem_canonPairs_pair g l x).mp ((sortR_perm _).mem_iff.mp hx)).2)
    (fun p _ => sortR_sorted _)
    (fun p hp x hx => by
      have hx' := (sortR_perm _).mem_iff.mp hx
      have hk := (mem_knownPairsSpec_pair g (p.length + 1) _ x).mp hx'
      have hg := (mem_groupOfSpec_iff vs g p l x.1).mp hk.1
      exact ⟨hg.2.1, hg.2.2, hk.2⟩)
    (fun c hc => ((mem_customInitSpec_iff vs g l c).mp hc).2)
    (fun p hp c hc => by
      have hd := (mem_deferredSpec_iff g (p.length + 1) _ c).mp hc
      have hg := (mem_groupOfSpec_iff vs g p l c).mp hd.1
      exact ⟨hg.2.1, hg.2.2, hd.2⟩)
  rw [scvSpec]
  exact h

theorem scv_fixed (vs : List Token) (g : Token → Option Nat) (l : List Token)
    (hvs : vs.Nodup) :
    sort_classes_vec vs g (sort_classes_vec vs g l) = sort_classes_vec vs g l := by
  rw [scv_decomp vs g l hvs, scv_decomp vs g (scvSpec vs g l) hvs]
  exact scvSpec_fixed vs g l hvs

/-! String-level lemmas about `sort_classes`. -/

theorem VARIANTS_nodup : VARIANTS.Nodup := by decide

theorem splitWs_sort_classes (options : Options) (s : Token) :
    splitWs (sort_classes s options) =
      if options.allow_duplicates then
        sort_classes_vec VARIANTS (sorterLookup options.sorter) (splitWs s)
      else
        sort_classes_vec VARIANTS (sorterLookup options.sorter) (uniqueFirst (splitWs s)) := by
  cases had : options.allow_duplicates
  · have hperm := scv_perm VARIANTS (sorterLookup options.sorter)
      (uniqueFirst (splitWs s)) VARIANTS_nodup
    have hclean : ∀ tok ∈ sort_classes_vec VARIANTS (sorterLookup options.sorter)
        (uniqueFirst (splitWs s)), tok ≠ [] ∧ ∀ c ∈ tok, isAsciiWs c = false := by
      intro tok htok
      exact splitWs_clean s tok
        ((mem_uniqueFirst (splitWs s) tok).mp (hperm.mem_iff.mp htok))
    simp only [sort_classes, had, Bool.false_eq_true, if_false]
    exact splitWs_joinSp _ (fun tok h => (hclean tok h).1) (fun tok h => (hclean tok h).2)
  · have hperm := scv_perm VARIANTS (sorterLookup options.sorter) (splitWs s) VARIANTS_nodup
    have hclean : ∀ tok ∈ sort_classes_vec VARIANTS (sorterLookup options.sorter) (splitWs s),
        tok ≠ [] ∧ ∀ c ∈ tok, isAsciiWs c = false := by
      intro tok htok
      exact splitWs_clean s tok (hperm.mem_iff.mp htok)
    simp only [sort_classes, had, if_true]
    exact splitWs_joinSp _ (fun tok h => (hclean tok h).1) (fun tok h => (hclean tok h).2)

theorem sort_classes_idem (options : Options) (s : Token) :
    sort_classes (sort_classes s options) options = sort_classes s options := by
  have hsplit := splitWs_sort_classes options s
  set X := sort_classes s options with hX
  cases had : options.allow_duplicates
  · rw [had] at hsplit
    simp only [Bool.false_eq_true, if_false] at hsplit
    have hnd : (sort_classes_vec VARIANTS (sorterLookup options.sorter)
        (uniqueFirst (splitWs s))).Nodup :=
      ((scv_perm VARIANTS (sorterLookup options.sorter) (uniqueFirst (splitWs s))
        VARIANTS_nodup).symm.nodup (uniqueFirst_nodup (splitWs s)))
    simp only [sort_classes, had, Bool.false_eq_true, if_false]
    rw [hsplit, uniqueFirst_of_nodup _ hnd,
      scv_fixed VARIANTS (sorterLookup options.sorter) _ VARIANTS_nodup, hX]
    simp only [sort_classes, had, Bool.false_eq_true, if_false]
  · rw [had, if_pos rfl] at hsplit
    simp only [sort_classes, had, if_true]
    rw [hsplit, scv_fixed VARIANTS (sorterLookup options.sorter) _ VARIANTS_nodup, hX]
    simp only [sort_classes, had, if_true]

/-! Decomposition of `replace_all` into its match chain. -/

theorem replaceAll_rebuild (r : RegexM) (hr : r.Valid) (f : MatchData → Token) :
    ∀ fuel t, t.length ≤ fuel →
      rebuildO (allMatchesF r fuel t) (residualTextF r fuel t) = t
      ∧ replaceAllFuel r f fuel t = rebuildR f (allMatchesF r fuel t) (residualTextF r fuel t) := by
  intro fuel
  induction fuel with
  | zero =>
    intro t h
    rw [Nat.le_zero, List.length_eq_zero] at h
    subst h
    exact ⟨rfl, rfl⟩
  | succ fuel ih =>
    intro t h
    cases hf : r.find t with
    | none =>
      simp only [allMatchesF, residualTextF, replaceAllFuel, hf]
      exact ⟨rfl, rfl⟩
    | some m =>
      have hv := hr t m hf
      have hlen : m.post.length ≤ fuel := by
        have hts : t.length = m.pre.length + m.whole.length + m.post.length := by
          rw [hv.1, List.length_append, List.length_append]
        have hw : 1 ≤ m.whole.length := by
          cases hwh : m.whole with
          | nil => exact absurd hwh hv.2
          | cons a as => simp
        omega
      obtain ⟨ihO, ihR⟩ := ih m.post hlen
      simp only [allMatchesF, residualTextF, replaceAllFuel, hf]
      constructor
      · show m.pre ++ m.whole ++ rebuildO (allMatchesF r fuel m.post)
          (residualTextF r fuel m.post) = t
        rw [ihO]
        exact hv.1.symm
      · show m.pre ++ f m ++ replaceAllFuel r f fuel m.post
          = m.pre ++ f m ++ rebuildR f (allMatchesF r fuel m.post)
            (residualTextF r fuel m.post)
        rw [ihR]

theorem replaceAll_no_match (r : RegexM) (f : MatchData → Token) (t : Token)
    (h : r.find t = none) : replaceAll r f t = t := by
  rw [replaceAll]
  cases t.length with
  | zero => rfl
  | succ n => simp [replaceAllFuel, h]

/-! Validity of the concrete regex models. -/

theorem isPrefixOf_append_drop : ∀ (needle t : Token), needle.isPrefixOf t = true →
    needle ++ t.drop needle.length = t := by
  intro needle
  induction needle with
  | nil => intro t _; rfl
  | cons n ns ih =>
    intro t h
    cases t with
    | nil => exact Bool.noConfusion h
    | cons c cs =>
      rw [List.isPrefixOf_cons₂, Bool.and_eq_true] at h
      have hnc : n = c := eq_of_beq h.1
      subst hnc
      show n :: (ns ++ cs.drop ns.length) = n :: cs
      rw [ih cs h.2]

theorem firstSplit_eq (needle : Token) : ∀ t b a, firstSplit needle t = some (b, a) →
    t = b ++ needle ++ a := by
  intro t
  induction t with
  | nil =>
    intro b a h
    simp only [firstSplit] at h
    by_cases hn : needle.isEmpty
    · rw [if_pos hn] at h
      cases h
      rw [List.isEmpty_iff] at hn
      rw [hn]
      rfl
    · rw [if_neg hn] at h
      cases h
  | cons c cs ih =>
    intro b a h
    simp only [firstSplit] at h
    by_cases hp : needle.isPrefixOf (c :: cs)
    · rw [if_pos hp] at h
      cases h
      show c :: cs = [] ++ needle ++ (c :: cs).drop needle.length
      rw [List.nil_append, isPrefixOf_append_drop needle (c :: cs) hp]
    · rw [if_neg hp] at h
      cases hfs : firstSplit needle cs with
      | none => rw [hfs] at h; cases h
      | some ba =>
        rw [hfs, Option.map_some'] at h
        cases h
        exact congrArg (c :: ·) (ih ba.1 ba.2 (by rw [hfs, Prod.mk.eta]))

theorem litRegex_valid (p c q : Token) (h : p ++ c ++ q ≠ []) : (litRegex p c q).Valid := by
  intro t m hm
  simp only [litRegex] at hm
  cases hfs : firstSplit (p ++ c ++ q) t with
  | none => rw [hfs] at hm; cases hm
  | some ba =>
    rw [hfs, Option.map_some'] at hm
    cases hm
    refine ⟨?_, h⟩
    exact firstSplit_eq (p ++ c ++ q) t ba.1 ba.2 (by rw [hfs, Prod.mk.eta])

theorem dropWhile_head_not (P : Char → Bool) : ∀ (l : List Char) (x : Char) (xs : List Char),
    l.dropWhile P = x :: xs → P x = false := by
  intro l
  induction l with
  | nil => intro x xs h; cases h
  | cons c cs ih =>
    intro x xs h
    rw [List.dropWhile_cons] at h
    by_cases hc : P c
    · rw [if_pos hc] at h
      exact ih x xs h
    · rw [if_neg hc] at h
      cases h
      exact Bool.eq_false_iff.mpr hc

theorem RE_valid : RE.Valid := by
  intro t m hm
  simp only [RE, findDefault] at hm
  cases hfs : firstSplit classLit t with
  | none => rw [hfs] at hm; cases hm
  | some br =>
    simp only [hfs] at hm
    cases hdw : br.2.dropWhile notQuote with
    | nil =>
      simp only [hdw] at hm
      exact Option.noConfusion hm
    | cons x after =>
      simp only [hdw] at hm
      cases hm
      have hx : notQuote x = false := dropWhile_head_not notQuote br.2 x after hdw
      have hx2 : x = '"' := by
        have : (x == '"') = true := by
          rw [notQuote] at hx
          cases hxx : x == '"'
          · rw [hxx] at hx
            cases hx
          · rfl
        exact eq_of_beq this
      constructor
      · have ht := firstSplit_eq classLit t br.1 br.2 (by rw [hfs, Prod.mk.eta])
        have hbr : br.2 = br.2.takeWhile notQuote ++ (x :: after) := by
          rw [← hdw, List.takeWhile_append_dropWhile]
        show t = br.1 ++ (classLit ++ List.takeWhile notQuote br.2 ++ ['"']) ++ after
        rw [ht]
        conv_lhs => rw [hbr]
        rw [hx2]
        simp [List.append_assoc]
      · intro hw
        exact List.noConfusion hw

theorem perm_count_eq : ∀ {l₁ l₂ : List Token}, List.Perm l₁ l₂ →
    ∀ t, List.count t l₁ = List.count t l₂ := by
  intro l₁ l₂ h
  induction h with
  | nil => intro t; rfl
  | cons x _ ih => intro t; rw [List.count_cons, List.count_cons, ih t]
  | swap x y l =>
    intro t
    rw [List.count_cons, List.count_cons, List.count_cons, List.count_cons]
    omega
  | trans _ _ ih1 ih2 => intro t; rw [ih1 t, ih2 t]

theorem count_eq_one_of_nodup_mem : ∀ {l : List Token} {t : Token},
    l.Nodup → t ∈ l → List.count t l = 1 := by
  intro l
  induction l with
  | nil => intro t _ ht; cases ht
  | cons x xs ih =>
    intro t hnd ht
    rw [List.nodup_cons] at hnd
    rw [List.count_cons]
    rcases List.mem_cons.mp ht with htx | hmem
    · subst htx
      rw [List.count_eq_zero_of_not_mem hnd.1]
      simp
    · have hxt : (x == t) = false := by
        have : ¬ x = t := fun hh => hnd.1 (hh ▸ hmem)
        exact beq_eq_false_iff_ne.mpr this
      rw [ih hnd.2 hmem, hxt]
      simp

theorem foldl_congr_mem {α β : Type} : ∀ (l : List β) (f g : α → β → α) (a : α),
    (∀ x ∈ l, ∀ acc, f acc x = g acc x) → l.foldl f a = l.foldl g a := by
  intro l
  induction l with
  | nil => intro f g a _; rfl
  | cons x xs ih =>
    intro f g a h
    rw [List.foldl_cons, List.foldl_cons, h x (List.mem_cons_self x xs) a]
    exact ih f g (g a x) (fun y hy acc => h y (List.mem_cons_of_mem x hy) acc)

theorem foldl_replaceAll_no_match (F : RegexM × Option RegexM → MatchData → Token) :
    ∀ (ps : List (RegexM × Option RegexM)) (t : Token),
      (∀ e ∈ ps, e.1.find t = none) →
      ps.foldl (fun u e => replaceAll e.1 (F e) u) t = t := by
  intro ps
  induction ps with
  | nil => intro t _; rfl
  | cons e es ih =>
    intro t h
    rw [List.foldl_cons, replaceAll_no_match e.1 (F e) t (h e (List.mem_cons_self e es))]
    exact ih t (fun x hx => h x (List.mem_cons_of_mem e hx))

/-! Claim theorems. -/

/-- Claim C1 (counterexample): with the pattern matching the literal
`b a x b a` and capturing only the trailing `b a`, rewriting the text
`b a x b a` changes bytes of the match span outside the captured substring
(the leading `b a` becomes `a b`), refuting the claim that every byte of the
match outside the captured substring is byte-identical in the output. -/
theorem claim_C1_counterexample :
    cexLocalRegex.find cexLocalText
      = some ⟨[], ['b', ' ', 'a', ' ', 'x', ' '], ['b', ' ', 'a'], [], []⟩
    ∧ sort_file_contents cexLocalText cexLocalOptions
        = ['a', ' ', 'b', ' ', 'x', ' ', 'a', ' ', 'b']
    ∧ (sort_file_contents cexLocalText cexLocalOptions).take 6 ≠ cexLocalText.take 6 := by
  decide

/-- Claim C1 (amended): across every Pattern Set the rewriter decomposes the
text it processes into unmatched segments interleaved with whole match spans,
keeps every unmatched segment (and the residual tail) byte-identical, and
replaces each whole match by a string-replacement, inside the whole match, of
every occurrence of the captured group-1 text by its rewritten form — the
sorted class string for the default and single-custom patterns and for a pair
entry with no inner pattern, and the inner-pass rewrite of the captured
container for a pair entry with an inner class pattern.  For the pair-list
set the passes (default pattern first, then each entry) run sequentially,
each decomposing the previous pass's output; a text in which no pattern of
the set matches is returned unchanged. -/
theorem claim_C1_amended (srt : Sorter) (ad : Bool) (t : Token) :
    (rebuildO (allMatches RE t) (residualText RE t) = t
      ∧ sort_file_contents t ⟨.DefaultRegex, srt, ad⟩
          = rebuildR (sortedReplacement ⟨.DefaultRegex, srt, ad⟩)
              (allMatches RE t) (residualText RE t)
      ∧ (RE.find t = none → sort_file_contents t ⟨.DefaultRegex, srt, ad⟩ = t))
    ∧ (∀ r : RegexM, r.Valid →
        rebuildO (allMatches r t) (residualText r t) = t
        ∧ sort_file_contents t ⟨.CustomRegex r, srt, ad⟩
            = rebuildR (sortedReplacement ⟨.CustomRegex r, srt, ad⟩)
                (allMatches r t) (residualText r t)
        ∧ (r.find t = none → sort_file_contents t ⟨.CustomRegex r, srt, ad⟩ = t))
    ∧ (∀ entries : List (RegexM × Option RegexM), (∀ e ∈ entries, e.1.Valid) →
        (∀ (u : Token), ∀ e ∈ (RE, (none : Option RegexM)) :: entries,
            rebuildO (allMatches e.1 u) (residualText e.1 u) = u)
        ∧ sort_file_contents t ⟨.CustomRegexEntries entries, srt, ad⟩
            = ((RE, (none : Option RegexM)) :: entries).foldl
                (fun u e =>
                  rebuildR (entryReplacement ⟨.CustomRegexEntries entries, srt, ad⟩ e.2)
                    (allMatches e.1 u) (residualText e.1 u)) t
        ∧ ((RE.find t = none ∧ ∀ e ∈ entries, e.1.find t = none) →
            sort_file_contents t ⟨.CustomRegexEntries entries, srt, ad⟩ = t)) := by
  refine ⟨?_, ?_, ?_⟩
  · have h := replaceAll_rebuild RE RE_valid (sortedReplacement ⟨.DefaultRegex, srt, ad⟩)
      t.length t (le_refl _)
    exact ⟨h.1, h.2, fun hn => replaceAll_no_match RE _ t hn⟩
  · intro r hr
    have h := replaceAll_rebuild r hr (sortedReplacement ⟨.CustomRegex r, srt, ad⟩)
      t.length t (le_refl _)
    exact ⟨h.1, h.2, fun hn => replaceAll_no_match r _ t hn⟩
  · intro entries hval
    have hvall : ∀ e ∈ (RE, (none : Option RegexM)) :: entries, e.1.Valid := by
      intro e he
      rcases List.mem_cons.mp he with h | h
      · rw [h]
        exact RE_valid
      · exact hval e h
    refine ⟨?_, ?_, ?_⟩
    · intro u e he
      exact (replaceAll_rebuild e.1 (hvall e he)
        (entryReplacement ⟨.CustomRegexEntries entries, srt, ad⟩ e.2) u.length u (le_refl _)).1
    · show ((RE, (none : Option RegexM)) :: entries).foldl
          (fun u e =>
            replaceAll e.1 (entryReplacement ⟨.CustomRegexEntries entries, srt, ad⟩ e.2) u) t
        = ((RE, (none : Option RegexM)) :: entries).foldl
            (fun u e =>
              rebuildR (entryReplacement ⟨.CustomRegexEntries entries, srt, ad⟩ e.2)
                (allMatches e.1 u) (residualText e.1 u)) t
      exact foldl_congr_mem _ _ _ t (fun e he u =>
        (replaceAll_rebuild e.1 (hvall e he)
          (entryReplacement ⟨.CustomRegexEntries entries, srt, ad⟩ e.2) u.length u (le_refl _)).2)
    · intro hn
      show ((RE, (none : Option RegexM)) :: entries).foldl
          (fun u e =>
            replaceAll e.1 (entryReplacement ⟨.CustomRegexEntries entries, srt, ad⟩ e.2) u) t
        = t
      refine foldl_replaceAll_no_match
        (fun e => entryReplacement ⟨.CustomRegexEntries entries, srt, ad⟩ e.2) _ t ?_
      intro e he
      rcases List.mem_cons.mp he with h | h
      · rw [h]
        exact hn.1
      · exact hn.2 e h

/-- Claim C1 (witness): the amended claim instantiated at concrete inputs —
the single-custom conjunct at the counterexample regex and text, and the
pair-list conjunct at a one-entry list on the default-matching text (plus the
no-match identity on a text nothing matches). -/
theorem claim_C1_witness :
    (rebuildO (allMatches cexLocalRegex cexLocalText)
        (residualText cexLocalRegex cexLocalText) = cexLocalText
      ∧ sort_file_contents cexLocalText ⟨.CustomRegex cexLocalRegex, .CustomSorter sorterAB, true⟩
          = rebuildR (sortedReplacement ⟨.CustomRegex cexLocalRegex, .CustomSorter sorterAB, true⟩)
              (allMatches cexLocalRegex cexLocalText) (residualText cexLocalRegex cexLocalText)
      ∧ (cexLocalRegex.find cexLocalText = none →
          sort_file_contents cexLocalText
            ⟨.CustomRegex cexLocalRegex, .CustomSorter sorterAB, true⟩ = cexLocalText))
    ∧ sort_file_contents hcText
          ⟨.CustomRegexEntries [(zzzRegex, none)], .CustomSorter sorterAB, true⟩
        = ((RE, (none : Option RegexM)) :: [(zzzRegex, none)]).foldl
            (fun u e =>
              rebuildR (entryReplacement
                  ⟨.CustomRegexEntries [(zzzRegex, none)], .CustomSorter sorterAB, true⟩ e.2)
                (allMatches e.1 u) (residualText e.1 u)) hcText
    ∧ sort_file_contents ['q']
          ⟨.CustomRegexEntries [(zzzRegex, none)], .CustomSorter sorterAB, true⟩
        = ['q'] :=
  have hval : ∀ e ∈ [((zzzRegex : RegexM), (none : Option RegexM))], e.1.Valid := by
    intro e he
    rcases List.mem_cons.mp he with h | h
    · rw [h]
      exact litRegex_valid _ _ _ (by decide)
    · cases h
  ⟨(claim_C1_amended (.CustomSorter sorterAB) true cexLocalText).2.1 cexLocalRegex
      (litRegex_valid _ _ _ (by decide)),
   ((claim_C1_amended (.CustomSorter sorterAB) true hcText).2.2 [(zzzRegex, none)] hval).2.1,
   ((claim_C1_amended (.CustomSorter sorterAB) true ['q']).2.2 [(zzzRegex, none)] hval).2.2
     ⟨by decide, by decide⟩⟩

/-- Claim C2 (code bug): on the text `class="b a"` with a config-supplied
pair list whose only container pattern is the literal `zzz`, `has_classes`
returns false although the default pattern matches and `sort_file_contents`
(which prepends the default pattern) rewrites the text to `class="a b"`:
the match predicate does not consult the default pattern, contradicting the
claim. -/
theorem claim_C2_code_bug :
    has_classes hcText hcOptions = false
    ∧ RE.is_match hcText = true
    ∧ sort_file_contents hcText hcOptions
        = ['c', 'l', 'a', 's', 's', '=', '"', 'a', ' ', 'b', '"']
    ∧ sort_file_contents hcText hcOptions ≠ hcText := by
  decide

/-- Claim C3 (counterexample): with the CLI-acceptable custom pattern
`(b a)()` and the custom table ranking `a` before `b`, rewriting `b a b a`
once gives `a b a b` but rewriting twice gives `a a b b`, refuting
`rewrite(rewrite(text)) = rewrite(text)` for every options value. -/
theorem claim_C3_counterexample :
    sort_file_contents cexIdemText cexIdemOptions = ['a', ' ', 'b', ' ', 'a', ' ', 'b']
    ∧ sort_file_contents (sort_file_contents cexIdemText cexIdemOptions) cexIdemOptions
        = ['a', ' ', 'a', ' ', 'b', ' ', 'b']
    ∧ sort_file_contents (sort_file_contents cexIdemText cexIdemOptions) cexIdemOptions
        ≠ sort_file_contents cexIdemText cexIdemOptions := by
  decide

/-- Claim C3 (amended): the token sorter itself is idempotent — for every
fixed options value, sorting an already-sorted class string returns it
unchanged: `sort_classes (sort_classes s options) options = sort_classes s
options`.  (Full-text rewrite idempotence fails for custom pattern sets, as
the counterexample shows.) -/
theorem claim_C3_amended (options : Options) (s : Token) :
    sort_classes (sort_classes s options) options = sort_classes s options :=
  sort_classes_idem options s

/-- Claim C4: for precedence-table keys `A` and `B` each occurring exactly
once in the token list (other tokens may repeat freely), `A` precedes `B` in
the sorted output iff `rank A < rank B` (for distinct ranks), regardless of
input order; tokens of equal rank keep their original relative order. -/
theorem claim_C4 (vs : List Token) (g : Token → Option Nat) (l : List Token)
    (A B : Token) (ra rb : Nat)
    (hvs : vs.Nodup) (hA1 : List.count A l = 1) (hB1 : List.count B l = 1) (hAB : A ≠ B)
    (hga : g A = some ra) (hgb : g B = some rb) :
    (ra ≠ rb → (List.Sublist [A, B] (sort_classes_vec vs g l) ↔ ra < rb))
    ∧ (ra = rb → List.Sublist [A, B] l → List.Sublist [A, B] (sort_classes_vec vs g l)) := by
  have hA : A ∈ l := by
    by_contra hno
    rw [List.count_eq_zero_of_not_mem hno] at hA1
    omega
  have hB : B ∈ l := by
    by_contra hno
    rw [List.count_eq_zero_of_not_mem hno] at hB1
    omega
  rw [scv_decomp vs g l hvs]
  have hA1out : List.count A (scvSpec vs g l) = 1 := by
    rw [perm_count_eq (scvSpec_perm vs g l hvs) A]
    exact hA1
  have hB1out : List.count B (scvSpec vs g l) = 1 := by
    rw [perm_count_eq (scvSpec_perm vs g l hvs) B]
    exact hB1
  have hApair : (A, ra) ∈ canonPairs g l := (mem_canonPairs_iff g l A ra).mpr ⟨hA, hga⟩
  have hBpair : (B, rb) ∈ canonPairs g l := (mem_canonPairs_iff g l B rb).mpr ⟨hB, hgb⟩
  have hext : ∀ (xy : List Token),
      List.Sublist xy ((sortR (canonPairs g l)).map Prod.fst) →
      List.Sublist xy (scvSpec vs g l) := by
    intro xy hxy
    rw [scvSpec, List.append_assoc]
    exact hxy.trans (List.sublist_append_left _ _)
  have hfwd : ∀ (X Y : Token) (rx ry : Nat), (X, rx) ∈ canonPairs g l →
      (Y, ry) ∈ canonPairs g l → rx < ry →
      List.Sublist [X, Y] (scvSpec vs g l) := by
    intro X Y rx ry hX hY hlt
    have hs := sorted_pair_of_lt (sortR_sorted (canonPairs g l))
      ((sortR_perm _).mem_iff.mpr hX) ((sortR_perm _).mem_iff.mpr hY) hlt
    exact hext _ (hs.map Prod.fst)
  constructor
  · intro hne
    constructor
    · intro hsub
      rcases Nat.lt_or_ge ra rb with h | h
      · exact h
      · exfalso
        have hlt : rb < ra := lt_of_le_of_ne h (fun hh => hne hh.symm)
        exact pair_sublist_asymm_count hAB hA1out hB1out hsub
          (hfwd B A rb ra hBpair hApair hlt)
    · intro hlt
      exact hfwd A B ra rb hApair hBpair hlt
  · intro heq hsubl
    have hfm : List.filterMap (fun c => (g c).map (fun r => (c, r))) [A, B]
        = [(A, ra), (B, rb)] := by
      simp [List.filterMap_cons, hga, hgb]
    have hsubp : List.Sublist [(A, ra), (B, rb)] (canonPairs g l) := by
      rw [← hfm]
      exact hsubl.filterMap _
    have hsr := sortR_before (A, ra) (B, rb) (canonPairs g l) hsubp (le_of_eq heq)
    exact hext _ (hsr.map Prod.fst)

/-- Claim C4 (witness): the canonical-ordering claim instantiated at a
concrete catalog, table and token list with a repeated custom token (`b q q
a` in the input, `rank a = 0 < 1 = rank b`). -/
theorem claim_C4_witness :
    ((0 : Nat) ≠ 1 → (List.Sublist [['a'], ['b']]
        (sort_classes_vec [['h']] (hmLookup sorterAB) [['b'], ['q'], ['q'], ['a']])
      ↔ (0 : Nat) < 1))
    ∧ ((0 : Nat) = 1 → List.Sublist [(['a'] : Token), ['b']] [['b'], ['q'], ['q'], ['a']]
        → List.Sublist [['a'], ['b']]
            (sort_classes_vec [['h']] (hmLookup sorterAB) [['b'], ['q'], ['q'], ['a']])) :=
  claim_C4 [['h']] (hmLookup sorterAB) [['b'], ['q'], ['q'], ['a']] ['a'] ['b'] 0 1
    (by decide) (by decide) (by decide) (by decide) (by decide) (by decide)

/-- Claim C5: the sorted output is exactly the concatenation of the
rank-sorted canonical bucket, then each catalog prefix's rank-sorted variant
group in catalog order, then the custom bucket — the initially-custom tokens
in discovery order followed by the deferred unknown-residual variant tokens
(appended, not dropped), grouped by prefix in catalog order. -/
theorem claim_C5 (vs : List Token) (g : Token → Option Nat) (l : List Token)
    (hvs : vs.Nodup) : sort_classes_vec vs g l = scvSpec vs g l :=
  scv_decomp vs g l hvs

/-- Claim C5 (witness): the decomposition instantiated at a concrete catalog
and token list containing a canonical token, a known-residual variant token,
an unknown-residual variant token and a custom token. -/
theorem claim_C5_witness :
    sort_classes_vec [['h'], ['f']] (hmLookup sorterAB)
        [['q'], ['b'], ['h', ':', 'z'], ['f', ':', 'b'], ['a'], ['h', ':', 'a']]
      = scvSpec [['h'], ['f']] (hmLookup sorterAB)
        [['q'], ['b'], ['h', ':', 'z'], ['f', ':', 'b'], ['a'], ['h', ':', 'a']] :=
  claim_C5 [['h'], ['f']] (hmLookup sorterAB)
    [['q'], ['b'], ['h', ':', 'z'], ['f', ':', 'b'], ['a'], ['h', ':', 'a']] (by decide)

/-- Claim C6: with duplicates disallowed, duplicate tokens are collapsed to
their first occurrence before sorting: the output token list is a
permutation of the first-occurrence deduplication of the input tokens, and
every distinct input token occurs exactly once in the output. -/
theorem claim_C6 (rgx : FinderRegex) (srt : Sorter) (s : Token) :
    List.Perm (splitWs (sort_classes s ⟨rgx, srt, false⟩)) (uniqueFirst (splitWs s))
    ∧ ∀ t : Token, List.count t (splitWs (sort_classes s ⟨rgx, srt, false⟩))
        = if t ∈ splitWs s then 1 else 0 := by
  have hs : splitWs (sort_classes s ⟨rgx, srt, false⟩)
      = sort_classes_vec VARIANTS (sorterLookup srt) (uniqueFirst (splitWs s)) := by
    have h := splitWs_sort_classes ⟨rgx, srt, false⟩ s
    simpa using h
  have hperm : List.Perm (splitWs (sort_classes s ⟨rgx, srt, false⟩))
      (uniqueFirst (splitWs s)) := by
    rw [hs]
    exact scv_perm VARIANTS (sorterLookup srt) (uniqueFirst (splitWs s)) VARIANTS_nodup
  refine ⟨hperm, fun t => ?_⟩
  rw [perm_count_eq hperm t]
  by_cases hmem : t ∈ splitWs s
  · rw [if_pos hmem]
    exact count_eq_one_of_nodup_mem (uniqueFirst_nodup _) ((mem_uniqueFirst _ t).mpr hmem)
  · rw [if_neg hmem]
    exact List.count_eq_zero_of_not_mem (fun hh => hmem ((mem_uniqueFirst _ t).mp hh))

/-- Claim C7: with duplicates allowed, the multiset of whitespace-separated
tokens of the sorted output equals the multiset of tokens of the input class
string: sorting permutes tokens but never adds, drops, or rewrites one. -/
theorem claim_C7 (rgx : FinderRegex) (srt : Sorter) (s : Token) :
    List.Perm (splitWs (sort_classes s ⟨rgx, srt, true⟩)) (splitWs s) := by
  have hs : splitWs (sort_classes s ⟨rgx, srt, true⟩)
      = sort_classes_vec VARIANTS (sorterLookup srt) (splitWs s) := by
    have h := splitWs_sort_classes ⟨rgx, srt, true⟩ s
    simpa using h
  rw [hs]
  exact scv_perm VARIANTS (sorterLookup srt) (splitWs s) VARIANTS_nodup

/-- Claim C8: a CLI-supplied pattern that compiles with fewer than 2 capture
groups makes options construction fail with `PatternShapeError` before any
text is processed (no file body is rewritten), while a pattern with at least
2 capture groups is accepted. -/
theorem claim_C8 (compile : Token → Option CompiledRegex) (cli : Cli) (s : Token)
    (r : CompiledRegex) (texts : List Token)
    (h1 : cli.custom_regex = some s) (h2 : compile s = some r) :
    (r.captures_len < 2 →
      Options.new_from_cli compile cli = .err .PatternShapeError
      ∧ (run_files compile cli texts).2 = texts)
    ∧ (2 ≤ r.captures_len →
      get_custom_regex_from_cli compile cli = .ok (.CustomRegex r.model)) := by
  constructor
  · intro hlt
    have hg : get_custom_regex_from_cli compile cli = .error .PatternShapeError := by
      simp only [get_custom_regex_from_cli, h1, h2, if_pos hlt]
    constructor
    · simp only [Options.new_from_cli, hg]
    · simp only [run_files, Options.new_from_cli, hg]
  · intro hge
    simp only [get_custom_regex_from_cli, h1, h2, if_neg (not_lt.mpr hge)]

/-- Claim C8 (witness): the shape check instantiated at a compile function
reporting 1 capture group for the pattern `x` and 2 for the pattern `y`. -/
theorem claim_C8_witness :
    (Options.new_from_cli compileLen cliShape = .err .PatternShapeError
      ∧ (run_files compileLen cliShape [['a']]).2 = [['a']])
    ∧ get_custom_regex_from_cli compileLen cliOk = .ok (.CustomRegex dummyRegex) :=
  ⟨(claim_C8 compileLen cliShape ['x'] ⟨dummyRegex, 1⟩ [['a']] rfl rfl).1 (by decide),
   (claim_C8 compileLen cliOk ['y'] ⟨dummyRegex, 2⟩ [] rfl rfl).2 (by decide)⟩

/-- Claim C9 (counterexample): a config-file pattern entry that fails to
compile makes options construction panic (the `unwrap` in
`parse_custom_regex`) rather than return `PatternCompileError` as an error
value, refuting the claim for config-file pattern entries. -/
theorem claim_C9_counterexample :
    Options.new_from_cli compileFail cliBadConfig = .panicked
    ∧ BuildResult.panicked ≠ BuildResult.err .PatternCompileError := by
  refine ⟨rfl, fun h => ?_⟩
  exact BuildResult.noConfusion h

/-- Claim C9 (amended): a CLI-supplied pattern that fails to compile yields
`PatternCompileError` as an error value before any text is rewritten; a
config-file pattern entry that fails to compile instead panics during
options construction — still before any rewriting, but as a crash rather
than an error value. -/
theorem claim_C9_amended (compile : Token → Option CompiledRegex) (cli : Cli)
    (texts : List Token) :
    (∀ s, cli.custom_regex = some s → compile s = none →
      Options.new_from_cli compile cli = .err .PatternCompileError
      ∧ (run_files compile cli texts).2 = texts)
    ∧ (∀ cfg entries, cli.custom_regex = none → cli.config_file = some cfg →
        cfg.custom_regex = some entries → parse_custom_regex compile entries = none →
      Options.new_from_cli compile cli = .panicked
      ∧ (run_files compile cli texts).2 = texts) := by
  constructor
  · intro s h1 h2
    have hg : get_custom_regex_from_cli compile cli = .error .PatternCompileError := by
      simp only [get_custom_regex_from_cli, h1, h2]
    constructor
    · simp only [Options.new_from_cli, hg]
    · simp only [run_files, Options.new_from_cli, hg]
  · intro cfg entries h1 h2 h3 h4
    have hg : get_custom_regex_from_cli compile cli = .ok .DefaultRegex := by
      simp only [get_custom_regex_from_cli, h1]
    have hc : get_options_from_config compile cli = none := by
      simp only [get_options_from_config, h2, h3, h4, Option.map_none']
    constructor
    · simp only [Options.new_from_cli, hg, hc]
    · simp only [run_files, Options.new_from_cli, hg, hc]

/-- Claim C9 (witness): the amended claim instantiated at a compile function
failing on the pattern string `(`, once supplied on the CLI and once in a
config-file entry. -/
theorem claim_C9_witness :
    (Options.new_from_cli compileFail cliBadCli = .err .PatternCompileError
      ∧ (run_files compileFail cliBadCli [['a']]).2 = [['a']])
    ∧ (Options.new_from_cli compileFail cliBadConfig = .panicked
      ∧ (run_files compileFail cliBadConfig [['a']]).2 = [['a']]) :=
  ⟨(claim_C9_amended compileFail cliBadCli [['a']]).1 ['('] rfl rfl,
   (claim_C9_amended compileFail cliBadConfig [['a']]).2
     ⟨none, some [.String ['(']]⟩ [.String ['(']] rfl rfl rfl rfl⟩

/-- Claim C10: the custom precedence table built from a user-supplied ordered
class-name list assigns each class the rank of its last occurrence in the
list (later positions overwrite earlier ones); a class occurring once gets
its unique position. -/
theorem claim_C10 (contents : List Token) (k : Token) :
    sorterLookup (parse_custom_sorter contents) k = lastOccIdx contents k := by
  have h := hmLookup_foldl_insert contents 0 [] k
  show hmLookup ((contents.enum.map (fun p => (p.2, p.1))).foldl
    (fun m kv => hmInsert m kv.1 kv.2) []) k = lastOccIdx contents k
  rw [List.enum_eq_enumFrom, h]
  cases hlo : lastOccIdx contents k with
  | some i =>
    show some (0 + i) = some i
    rw [Nat.zero_add]
  | none => rfl

end Rustywind
